import Mathlib

/-!
Verification development for the pygeoprocessing routing engine and kernel
generator.  The routing engine itself ships only as a compiled extension in
this repository; its behavioural contract is fixed by the specification and
by an extensive regression test suite.  The definitions below therefore model
the routing operations from the specification (each such definition carries a
doc comment starting with "Modelled from the spec:"), while the kernel
generator definitions are translated directly from
src/pygeoprocessing/kernels.py.

Grids are represented as functions from row/column indices to cell values,
materialised into row-major lists of lists whenever an algorithm performs a
full-grid pass (mirroring the block-wise full-grid writes of the raster
layer).  Machine floating point is modelled by exact arithmetic: ℚ where the
algorithms only add and multiply small quantities, and the ring ℚ + ℚ·√2
(`Q2` below) for distance accumulation whose default hop costs are 1 and √2.
-/

namespace PGP

/-- Materialise a grid function into a row-major list of lists, the shape in
which the raster layer writes a full raster of height `h` and width `w`. -/
def materialize {α : Type} (h w : ℕ) (f : ℕ → ℕ → α) : List (List α) :=
  (List.range h).map fun i => (List.range w).map fun j => f i j

/-- Read cell `(i, j)` of a materialised grid, with default `d` off the grid. -/
def lookup {α : Type} (g : List (List α)) (d : α) (i j : ℕ) : α :=
  (g.getD i []).getD j d

theorem lookup_materialize {α : Type} (h w : ℕ) (f : ℕ → ℕ → α) (d : α)
    {i j : ℕ} (hi : i < h) (hj : j < w) :
    lookup (materialize h w f) d i j = f i j := by
  simp only [lookup, materialize, List.getD_eq_getElem?_getD, List.getElem?_map,
    List.getElem?_range hi, List.getElem?_range hj, Option.map_some', Option.getD_some]

theorem materialize_length {α : Type} (h w : ℕ) (f : ℕ → ℕ → α) :
    (materialize h w f).length = h := by
  simp [materialize]

theorem materialize_row_length {α : Type} (h w : ℕ) (f : ℕ → ℕ → α) :
    ∀ row ∈ materialize h w f, row.length = w := by
  intro row hrow
  simp only [materialize, List.mem_map] at hrow
  obtain ⟨i, _, rfl⟩ := hrow
  simp

/-- Compass offsets of the eight D8 directions, as (row delta, col delta) with
rows increasing southward: 0=E, 1=NE, 2=N, 3=NW, 4=W, 5=SW, 6=S, 7=SE.  This
is the numbering the regression fixtures pin down (cardinal directions are
the even codes 0,2,4,6). -/
def dirOffset (k : ℕ) : ℤ × ℤ :=
  match k with
  | 0 => (0, 1)
  | 1 => (-1, 1)
  | 2 => (-1, 0)
  | 3 => (-1, -1)
  | 4 => (0, -1)
  | 5 => (1, -1)
  | 6 => (1, 0)
  | _ => (1, 1)

/-- The neighbour of cell `(i, j)` in direction `k` on an `h × w` grid, or
`none` when that neighbour falls off the grid. -/
def nbr (h w i j k : ℕ) : Option (ℕ × ℕ) :=
  let d := dirOffset k
  let i' : ℤ := (i : ℤ) + d.1
  let j' : ℤ := (j : ℤ) + d.2
  if 0 ≤ i' ∧ i' < (h : ℤ) ∧ 0 ≤ j' ∧ j' < (w : ℤ) then some (i'.toNat, j'.toNat)
  else none

/-- Modelled from the spec: the single downstream target of a cell under a D8
direction grid (§4.2).  Direction codes 0–7 address the eight neighbours; any
other value is the nodata direction code.  A step exists only when the source
cell is on the grid and non-nodata and the target cell is on the grid and
non-nodata ("nodata input cells are excluded from in-degree computation and
never receive or emit flow", §4.4). -/
def d8next (h w : ℕ) (dir : ℕ → ℕ → ℕ) (c : ℕ × ℕ) : Option (ℕ × ℕ) :=
  if c.1 < h ∧ c.2 < w ∧ dir c.1 c.2 < 8 then
    match nbr h w c.1 c.2 (dir c.1 c.2) with
    | some n => if dir n.1 n.2 < 8 then some n else none
    | none => none
  else none

/-- Iterated downstream step of the D8 direction graph; `none` (off-grid or
nodata) is absorbing. -/
def iterD8 (h w : ℕ) (dir : ℕ → ℕ → ℕ) (n : ℕ) (c : ℕ × ℕ) : Option (ℕ × ℕ) :=
  (fun oc => Option.bind oc (d8next h w dir))^[n] (some c)

/-- Modelled from the spec: a D8 direction grid is acyclic when every
downstream chain leaves the grid within `h * w` steps (§3: the induced
directed graph restricted to non-nodata cells contains no cycles; on an
`h × w` grid a cycle-free chain of distinct cells dies within `h * w`
steps). -/
def AcyclicD8 (h w : ℕ) (dir : ℕ → ℕ → ℕ) : Prop :=
  ∀ i j : ℕ, i < h → j < w → ∃ n, n ≤ h * w ∧ iterD8 h w dir n (i, j) = none

instance (h w : ℕ) (dir : ℕ → ℕ → ℕ) : Decidable (AcyclicD8 h w dir) :=
  decidable_of_iff
    ((List.range h).all fun i => (List.range w).all fun j =>
      (List.range (h * w + 1)).any fun n => (iterD8 h w dir n (i, j)).isNone)
    (by
      simp only [List.all_eq_true, List.any_eq_true, List.mem_range,
        Option.isNone_iff_eq_none, AcyclicD8, Nat.lt_succ_iff]
      exact ⟨fun H i j hi hj => H i hi j hj, fun H i hi j hj => H i j hi hj⟩)

/-- Sum of a list of cell values, written as an explicit fold so that it
evaluates by kernel reduction at concrete cell types. -/
def asum {α : Type} [Add α] [Zero α] (l : List α) : α :=
  l.foldr (fun a b => a + b) 0

/-- Sum over the eight compass directions of `f` at the neighbour that flows
into `(i, j)` through direction `k`: cell `u = (i, j) - dirOffset k` counts
exactly when its direction code is `k`, i.e. when its single outgoing D8 edge
points at `(i, j)`.  The reverse offset of direction `k` is direction
`(k + 4) % 8`. -/
def upstreamSumD8 {α : Type} [Add α] [Zero α] (h w : ℕ) (dir : ℕ → ℕ → ℕ)
    (f : ℕ → ℕ → α) (i j : ℕ) : α :=
  asum ((List.range 8).map fun k =>
    match nbr h w i j ((k + 4) % 8) with
    | some u => if d8next h w dir u = some (i, j) then f u.1 u.2 else 0
    | none => 0)

/-- Modelled from the spec: one Jacobi sweep of the D8 flow-accumulation
recurrence (Section 4.4): a cell's next value is its own weight plus the
previous values of all neighbours whose direction points at it. -/
def accStepD8 {α : Type} [Add α] [Zero α] (h w : ℕ) (dir : ℕ → ℕ → ℕ)
    (wt : ℕ → ℕ → α) (prev : List (List α)) : List (List α) :=
  materialize h w fun i j => wt i j + upstreamSumD8 h w dir (lookup prev 0) i j

/-- Modelled from the spec: D8 flow accumulation (Section 4.4,
`flow_accumulation_d8`).  Starting from each cell's own weight, the
downstream-propagation recurrence is iterated `h * w` times — enough sweeps
for every upstream chain of the acyclic direction graph (each cell is
finalised once all its upstream cells are).  The cell type is the numeric
type of the float64 output band, modelled exactly (ℚ in general; the integer
regression fixtures live in ℤ, on which float64 arithmetic is exact). -/
def flow_accumulation_d8 {α : Type} [Add α] [Zero α] (h w : ℕ)
    (dir : ℕ → ℕ → ℕ) (wt : ℕ → ℕ → α) : List (List α) :=
  (accStepD8 h w dir wt)^[h * w] (materialize h w wt)

/-- Nodata test against an optional per-grid nodata sentinel (the spec treats
nodata as a reserved cell value, not a language null). -/
def isNod {α : Type} [DecidableEq α] (nodata : Option α) (v : α) : Bool :=
  match nodata with
  | some n => v = n
  | none => false

/-- Modelled from the spec: the seed set of the priority-flood pass (Section
4.1) — every boundary cell and every cell adjacent to nodata, provided the
cell itself is not nodata. -/
def seedB {α : Type} [DecidableEq α] (h w : ℕ) (e : ℕ → ℕ → α)
    (nodata : Option α) (i j : ℕ) : Bool :=
  i = 0 || i = h - 1 || j = 0 || j = w - 1 ||
  ((List.range 8).any fun k =>
    match nbr h w i j k with
    | some n => isNod nodata (e n.1 n.2)
    | none => false)

/-- Minimum of two optional elevations, with `none` standing for +infinity
(cell not yet reachable from any drain). -/
def omin2 {α : Type} [LinearOrder α] : Option α → Option α → Option α
  | none, o => o
  | some a, none => some a
  | some a, some b => some (min a b)

/-- Modelled from the spec: one sweep of the priority-flood value recurrence
(Section 4.1).  A seed keeps its own elevation; any other cell's filled
elevation is the minimum over its eight neighbours of
max(own original elevation, neighbour's filled elevation) — the minimum over
drain paths of the highest elevation on the path, which Section 4.1 states is
exactly the priority-flood result.  Nodata cells never hold a value. -/
def fillStep {α : Type} [LinearOrder α] [DecidableEq α] (h w : ℕ)
    (e : ℕ → ℕ → α) (nodata : Option α) (prev : List (List (Option α))) :
    List (List (Option α)) :=
  materialize h w fun i j =>
    if isNod nodata (e i j) then none
    else if seedB h w e nodata i j then some (e i j)
    else ((List.range 8).map fun k =>
      match nbr h w i j k with
      | some n => (lookup prev none n.1 n.2).map (fun y => max (e i j) y)
      | none => none).foldr omin2 none

/-- Filled elevation values after `h * w` sweeps (every cell is within
`h * w` hops of a drain, so the recurrence has converged on its reachable
set). -/
def fillInit {α : Type} [LinearOrder α] [DecidableEq α] (h w : ℕ)
    (e : ℕ → ℕ → α) (nodata : Option α) : List (List (Option α)) :=
  materialize h w fun i j =>
    if isNod nodata (e i j) then none
    else if seedB h w e nodata i j then some (e i j) else none

def fillVals {α : Type} [LinearOrder α] [DecidableEq α] (h w : ℕ)
    (e : ℕ → ℕ → α) (nodata : Option α) : List (List (Option α)) :=
  (fillStep h w e nodata)^[h * w] (fillInit h w e nodata)

/-- Modelled from the spec: `fill_pits` (Section 4.1).  The output grid has
the same `h × w` shape and the same cell type as the input; nodata cells pass
through unchanged. -/
def fill_pits {α : Type} [LinearOrder α] [DecidableEq α] (h w : ℕ)
    (e : ℕ → ℕ → α) (nodata : Option α) : List (List α) :=
  materialize h w fun i j =>
    if isNod nodata (e i j) then e i j
    else (lookup (fillVals h w e nodata) none i j).getD (e i j)

/-- Exact model of the value field of distance computations: `re + rt * sqrt 2`,
the subring of the reals in which all distances live when the default hop
costs are 1 (cardinal) and sqrt 2 (diagonal). -/
structure Q2 (α : Type) where
  re : α
  rt : α
deriving DecidableEq

instance {α : Type} [Add α] : Add (Q2 α) :=
  ⟨fun x y => ⟨x.re + y.re, x.rt + y.rt⟩⟩

instance {α : Type} [Zero α] : Zero (Q2 α) :=
  ⟨⟨0, 0⟩⟩

/-- Scale a `Q2` value by a scalar from the component type. -/
def Q2.scale {α : Type} [Mul α] (c : α) (x : Q2 α) : Q2 α :=
  ⟨c * x.re, c * x.rt⟩

/-- Interpretation of a `Q2 ℚ` value as the real number it denotes. -/
noncomputable def Q2.toReal (x : Q2 ℚ) : ℝ :=
  (x.re : ℝ) + (x.rt : ℝ) * Real.sqrt 2

/-- Default geometric hop cost of a step in direction `k` (Section 4.5):
1 for a cardinal step, sqrt 2 for a diagonal one. -/
def geoCost {α : Type} [Zero α] [One α] (k : ℕ) : Q2 α :=
  if k % 2 = 0 then ⟨1, 0⟩ else ⟨0, 1⟩

/-- Channel membership: the channel grid marks channel cells with a nonzero
byte value. -/
def chanB (chan : ℕ → ℕ → ℕ) (i j : ℕ) : Bool :=
  chan i j ≠ 0

/-- Modelled from the spec: one sweep of the D8 distance-to-channel
recurrence (Section 4.5).  A channel cell has distance 0; any other cell adds
its hop cost to the already-resolved distance of its unique downstream
target, and stays unresolved (`none`) while that target is unresolved or
never resolves. -/
def distStepD8 {β : Type} [Add β] [Zero β] (h w : ℕ) (dir : ℕ → ℕ → ℕ)
    (chan : ℕ → ℕ → ℕ) (hop : ℕ → ℕ → β) (prev : List (List (Option β))) :
    List (List (Option β)) :=
  materialize h w fun i j =>
    if chanB chan i j then some 0
    else
      match d8next h w dir (i, j) with
      | some n => (lookup prev none n.1 n.2).map (fun d => d + hop i j)
      | none => none

/-- Modelled from the spec: `distance_to_channel_d8` (Section 4.5) over an
abstract per-cell hop cost, iterated `h * w` sweeps (enough for every
downstream path that reaches a channel, since a shortest such path never
revisits a cell). -/
def d8DistCore {β : Type} [Add β] [Zero β] (h w : ℕ) (dir : ℕ → ℕ → ℕ)
    (chan : ℕ → ℕ → ℕ) (hop : ℕ → ℕ → β) : List (List (Option β)) :=
  (distStepD8 h w dir chan hop)^[h * w]
    (materialize h w fun i j => if chanB chan i j then some 0 else none)

/-- Modelled from the spec: `distance_to_channel_d8` with its optional weight
band.  Without a weight band the hop cost is the geometric hop length of the
cell's direction; with one, the hop cost is the stepping cell's weight. -/
def distance_to_channel_d8 {α : Type} [Add α] [Zero α] [One α] (h w : ℕ)
    (dir : ℕ → ℕ → ℕ) (chan : ℕ → ℕ → ℕ) (wtOpt : Option (ℕ → ℕ → α)) :
    List (List (Option (Q2 α))) :=
  d8DistCore h w dir chan
    (match wtOpt with
     | some wt => fun i j => ⟨wt i j, 0⟩
     | none => fun i j => geoCost (dir i j))

/-- Field `k` of a packed MFD direction value: bits `4k .. 4k+3`, the 4-bit
outflow proportion toward compass direction `k` (Section 3). -/
def mfdField (g : ℕ → ℕ → ℕ) (i j k : ℕ) : ℕ :=
  g i j / 16 ^ k % 16

/-- Sum of the eight packed fields of an MFD cell. -/
def mfdFieldSum (g : ℕ → ℕ → ℕ) (i j : ℕ) : ℕ :=
  asum ((List.range 8).map fun k => mfdField g i j k)

/-- Modelled from the spec: the MFD inflow sum of the accumulation recurrence
(Section 4.4) — each neighbour `u` whose field toward `(i, j)` is nonzero
contributes its value scaled by that field's share of `u`'s total outflow. -/
def mfdUpSum (h w : ℕ) (g : ℕ → ℕ → ℕ) (f : ℕ → ℕ → ℚ) (i j : ℕ) : ℚ :=
  asum ((List.range 8).map fun k =>
    match nbr h w i j ((k + 4) % 8) with
    | some u =>
        if mfdField g u.1 u.2 k ≠ 0 then
          ((mfdField g u.1 u.2 k : ℚ) / (mfdFieldSum g u.1 u.2 : ℚ)) * f u.1 u.2
        else 0
    | none => 0)

/-- Modelled from the spec: one sweep of the MFD flow-accumulation
recurrence. -/
def accStepMFD (h w : ℕ) (g : ℕ → ℕ → ℕ) (wt : ℕ → ℕ → ℚ)
    (f : ℕ → ℕ → ℚ) : ℕ → ℕ → ℚ :=
  fun i j => wt i j + mfdUpSum h w g f i j

/-- Modelled from the spec: `flow_accumulation_mfd` (Section 4.4), iterated
`h * w` sweeps as in the D8 case. -/
def flow_accumulation_mfd (h w : ℕ) (g : ℕ → ℕ → ℕ) (wt : ℕ → ℕ → ℚ) :
    ℕ → ℕ → ℚ :=
  (accStepMFD h w g wt)^[h * w] wt

/-- Hop cost of an MFD step from cell `(i, j)` along direction `k`: the
geometric hop length by default, the stepping cell's weight when a weight
band is supplied (Section 4.5). -/
def mfdHop (wtOpt : Option (ℕ → ℕ → ℚ)) : ℕ → ℕ → ℕ → Q2 ℚ :=
  match wtOpt with
  | some wt => fun i j _ => ⟨wt i j, 0⟩
  | none => fun _ _ k => geoCost k

/-- Modelled from the spec: one sweep of the MFD distance-to-channel
recurrence (Section 4.5).  A channel cell has distance 0; any other cell
combines, over all outflow directions with nonzero field whose target has a
resolved distance, the target distance plus the hop cost, as a flow-weighted
average with the fields as averaging weights; it stays unresolved while no
outflow target is resolved. -/
def mfdContribs (h w : ℕ) (g : ℕ → ℕ → ℕ) (hop : ℕ → ℕ → ℕ → Q2 ℚ)
    (f : ℕ → ℕ → Option (Q2 ℚ)) (i j : ℕ) : List (ℚ × Q2 ℚ) :=
  (List.range 8).filterMap fun k =>
    match nbr h w i j k with
    | some n =>
        if mfdField g i j k ≠ 0 then
          (f n.1 n.2).map fun x => ((mfdField g i j k : ℚ), x + hop i j k)
        else none
    | none => none

def mfdDistStep (h w : ℕ) (g chan : ℕ → ℕ → ℕ) (hop : ℕ → ℕ → ℕ → Q2 ℚ)
    (f : ℕ → ℕ → Option (Q2 ℚ)) : ℕ → ℕ → Option (Q2 ℚ) :=
  fun i j =>
    if i < h ∧ j < w then
      if chanB chan i j then some 0
      else
        if (mfdContribs h w g hop f i j).isEmpty then none
        else
          some (Q2.scale (asum ((mfdContribs h w g hop f i j).map Prod.fst))⁻¹
            (asum ((mfdContribs h w g hop f i j).map fun p => Q2.scale p.1 p.2)))
    else none

/-- Modelled from the spec: `distance_to_channel_mfd` (Section 4.5), iterated
`h * w` sweeps. -/
def distance_to_channel_mfd (h w : ℕ) (g chan : ℕ → ℕ → ℕ)
    (wtOpt : Option (ℕ → ℕ → ℚ)) : ℕ → ℕ → Option (Q2 ℚ) :=
  (mfdDistStep h w g chan (mfdHop wtOpt))^[h * w]
    (fun i j => if i < h ∧ j < w ∧ chanB chan i j then some 0 else none)

/-- Modelled from the spec: the MFD downstream reachability relation behind
"cell whose downstream path reaches a channel cell" (Section 8) — within
`m` hops, following outflow directions with a nonzero packed field. -/
def mreach (h w : ℕ) (g chan : ℕ → ℕ → ℕ) : ℕ → ℕ × ℕ → Prop
  | 0, c => c.1 < h ∧ c.2 < w ∧ chanB chan c.1 c.2 = true
  | n + 1, c => c.1 < h ∧ c.2 < w ∧ (chanB chan c.1 c.2 = true
      ∨ ∃ k u, k < 8 ∧ mfdField g c.1 c.2 k ≠ 0 ∧ nbr h w c.1 c.2 k = some u
        ∧ mreach h w g chan n u)

/-- The set of cells whose D8 distance is resolved after `n` sweeps; the
sweeps only ever resolve additional cells, and the whole set of valid cells
bounds its growth. -/
def d8DefSet (h w : ℕ) (dir chan : ℕ → ℕ → ℕ) (hop : ℕ → ℕ → Q2 ℚ) (n : ℕ) :
    Finset (ℕ × ℕ) :=
  (Finset.range h ×ˢ Finset.range w).filter fun c =>
    (lookup ((distStepD8 h w dir chan hop)^[n]
      (materialize h w fun i j => if chanB chan i j then some 0 else none))
      none c.1 c.2).isSome = true

/-- The set of cells whose MFD distance is resolved after `n` sweeps. -/
def mfdDefSet (h w : ℕ) (g chan : ℕ → ℕ → ℕ) (hop : ℕ → ℕ → ℕ → Q2 ℚ) (n : ℕ) :
    Finset (ℕ × ℕ) :=
  (Finset.range h ×ˢ Finset.range w).filter fun c =>
    ((mfdDistStep h w g chan hop)^[n]
      (fun i j => if i < h ∧ j < w ∧ chanB chan i j then some 0 else none)
      c.1 c.2).isSome = true

/-- Modelled from the spec: the raw MFD flow weight of cell `(i, j)` toward
direction `k` (Section 4.3) — positive exactly for strictly lower neighbours,
proportional to the drop times a positive per-direction coefficient `cs k`
(slope times unit contour length divided by hop length; the spec leaves the
exact positive constants open, Section 9). -/
def downW (h w : ℕ) (e : ℕ → ℕ → ℚ) (cs : ℕ → ℚ) (i j k : ℕ) : ℚ :=
  match nbr h w i j k with
  | some n => if e n.1 n.2 < e i j then (e i j - e n.1 n.2) * cs k else 0
  | none => 0

/-- Total raw MFD outflow weight of a cell. -/
def downWSum (h w : ℕ) (e : ℕ → ℕ → ℚ) (cs : ℕ → ℚ) (i j : ℕ) : ℚ :=
  asum ((List.range 8).map fun k => downW h w e cs i j k)

/-- Normalised share of cell outflow toward direction `k` (zero for a sink,
where the total weight is zero and division by zero yields zero). -/
def mfdShare (h w : ℕ) (e : ℕ → ℕ → ℚ) (cs : ℕ → ℚ) (i j k : ℕ) : ℚ :=
  downW h w e cs i j k / downWSum h w e cs i j

/-- Modelled from the spec: quantisation of a share into a 4-bit field by
rounding `15 * share` to the nearest integer (Section 4.3). -/
def mfdQuant (h w : ℕ) (e : ℕ → ℕ → ℚ) (cs : ℕ → ℚ) (i j k : ℕ) : ℕ :=
  (Int.floor (15 * mfdShare h w e cs i j k + 1 / 2)).toNat

/-- Modelled from the spec: `flow_dir_mfd` (Section 4.3) — the packed 32-bit
MFD direction value of each cell. -/
def flow_dir_mfd (h w : ℕ) (e : ℕ → ℕ → ℚ) (cs : ℕ → ℚ) (i j : ℕ) : ℕ :=
  asum ((List.range 8).map fun k => mfdQuant h w e cs i j k * 16 ^ k)

/-- Modelled from the spec: the watershed label of a cell (Section 4.6) — the
index of the first outflow cell reached by walking the downstream D8 chain,
starting at the cell itself, with `none` when the chain leaves the grid
before meeting an outflow cell.  Fuel `h * w + 1` suffices for any chain that
meets an outflow cell at all, since a shortest such chain never revisits a
cell. -/
def traceLabel (h w : ℕ) (dir : ℕ → ℕ → ℕ) (outs : List (ℕ × ℕ)) :
    ℕ → ℕ × ℕ → Option ℕ
  | 0, _ => none
  | fuel + 1, c =>
    match outs.findIdx? (fun o => o = c) with
    | some idx => some idx
    | none => (d8next h w dir c).bind (traceLabel h w dir outs fuel)

/-- Grid of watershed labels for all cells. -/
def delineationLabels (h w : ℕ) (dir : ℕ → ℕ → ℕ) (outs : List (ℕ × ℕ)) :
    List (List (Option ℕ)) :=
  materialize h w fun i j => traceLabel h w dir outs (h * w + 1) (i, j)

/-- An affine geotransform: origin and signed cell size per axis (the zero
rotation terms of the test fixtures are omitted). -/
structure GeoT where
  x0 : ℚ
  dx : ℚ
  y0 : ℚ
  dy : ℚ

/-- Rasterise a world point to the (row, col) of its containing cell. -/
def rasterize (g : GeoT) (x y : ℚ) : ℕ × ℕ :=
  ((Int.floor ((y - g.y0) / g.dy)).toNat, (Int.floor ((x - g.x0) / g.dx)).toNat)

/-- Number of cells carrying watershed label `l`. -/
def countLabel (labels : List (List (Option ℕ))) (l : ℕ) : ℕ :=
  (labels.flatten.filter (fun v => v = some l)).length

/-- Whether two cells are distinct and 8-adjacent (share at least a corner
point of their pixel squares). -/
def adj8 (a b : ℕ × ℕ) : Bool :=
  a ≠ b && ((a.1 : ℤ) - b.1).natAbs ≤ 1 && ((a.2 : ℤ) - b.2).natAbs ≤ 1

/-- Whether the watersheds of labels `l1` and `l2` touch: some cell of the
first is 8-adjacent to some cell of the second (their polygon unions then
share at least a boundary point, while their interiors are disjoint because
labelling is single-valued). -/
def touches (h w : ℕ) (labels : List (List (Option ℕ))) (l1 l2 : ℕ) : Bool :=
  (List.range h).any fun i => (List.range w).any fun j =>
    lookup labels none i j = some l1 &&
    ((List.range 8).any fun k =>
      match nbr h w i j k with
      | some n => lookup labels none n.1 n.2 = some l2
      | none => false)

/-- A store of named rasters on disk, as seen by one call: paths to optional
grids. -/
def RasterStore : Type := String → Option (List (List ℕ))

/-- Write a grid at a path of the store. -/
def storeWrite (s : RasterStore) (p : String) (g : List (List ℕ)) :
    RasterStore :=
  fun q => if q = p then some g else s q

/-- Modelled from the spec: `delineate_watersheds` (Section 4.6) as a state
transformer over the raster store.  It reads the direction raster, writes the
watershed labels into the caller-named scratch raster while tracing, emits
one polygon record (abstracted to its cell count) per outflow point, and
leaves the scratch raster zeroed, as the regression test observes.  The input
direction raster is only read. -/
def delineate_watersheds (s : RasterStore) (dirPath scratchPath : String)
    (gt : GeoT) (points : List (ℚ × ℚ)) : RasterStore × Option (List ℕ) :=
  match s dirPath with
  | none => (s, none)
  | some dg =>
    let h := dg.length
    let w := (dg.headD []).length
    let dirf := lookup dg 8
    let outs := points.map fun p => rasterize gt p.1 p.2
    let labels := delineationLabels h w dirf outs
    let s1 := storeWrite s scratchPath
      (labels.map (List.map fun o => match o with | some l => l + 1 | none => 0))
    let polys := (List.range outs.length).map fun l => countLabel labels l
    let s2 := storeWrite s1 scratchPath (materialize h w fun _ _ => 0)
    (s2, some polys)

/-- Pixel radius of a kernel raster: `math.ceil(max_distance)` (kernels.py
line 91).  Distances are float inputs, modelled exactly in ℚ. -/
def kernelRadius (md : ℚ) : ℕ :=
  (Int.ceil md).toNat

/-- Kernel raster width and height: `pixel_radius * 2 + 1`, allowing for a
centre pixel (kernels.py line 92). -/
def kernelSize (md : ℚ) : ℕ :=
  2 * kernelRadius md + 1

/-- Distance of pixel `(y, x)` from the centre pixel of a kernel of radius
`r`: `numpy.hypot` of the row and column offsets (kernels.py lines 130-133,
where the block-local `mgrid` coordinates reconstruct exactly the global
offsets `y - r` and `x - r`). -/
noncomputable def distFromCenter (r y x : ℕ) : ℝ :=
  Real.sqrt (((y : ℝ) - r) ^ 2 + ((x : ℝ) - r) ^ 2)

/-- Sum of all first-pass kernel values: the `running_sum` accumulated over
the block iteration of the first pass (kernels.py lines 118-135). -/
noncomputable def kernelRunningSum (f : ℝ → ℝ) (md : ℚ) : ℝ :=
  ∑ p ∈ Finset.range (kernelSize md) ×ˢ Finset.range (kernelSize md),
    f (distFromCenter (kernelRadius md) p.1 p.2)

/-- A kernel raster: its square size and its Float32 band, modelled as exact
reals. -/
structure KernelRaster where
  size : ℕ
  val : ℕ → ℕ → ℝ

/-- Translation of `_create_distance_based_kernel` (kernels.py lines 71-157):
the first pass writes `function(distance_from_center)` for every pixel and
accumulates the running sum; when `normalize` is set, a second pass divides
every pixel by that sum. -/
noncomputable def createDistanceBasedKernel (f : ℝ → ℝ) (md : ℚ)
    (normalize : Bool) : KernelRaster where
  size := kernelSize md
  val := fun y x =>
    if normalize then
      f (distFromCenter (kernelRadius md) y x) / kernelRunningSum f md
    else f (distFromCenter (kernelRadius md) y x)

/-- The `_dichotomy` callable of `dichotomous_kernel` (kernels.py 14-16). -/
noncomputable def dichotomousF (md : ℚ) (d : ℝ) : ℝ :=
  if d ≤ (md : ℝ) then 1 else 0

/-- The `_density` callable of `density_decay_kernel` (kernels.py 23-30). -/
noncomputable def densityF (md : ℚ) (d : ℝ) : ℝ :=
  if d ≤ (md : ℝ) then 0.75 * (1 - (d / md) ^ 2) else 0

/-- The `_exp_decay` callable of `exponential_decay_kernel`
(kernels.py 37-41). -/
noncomputable def expDecayF (md : ℚ) (d : ℝ) : ℝ :=
  if (md : ℝ) < d then 0 else Real.exp (-d / md)

/-- The `_linear_decay` callable of `linear_decay_kernel`
(kernels.py 48-51). -/
noncomputable def linearDecayF (md : ℚ) (d : ℝ) : ℝ :=
  if (md : ℝ) < d then 0 else ((md : ℝ) - d) / md

/-- The `_gaussian_decay` callable of `gaussian_decay_kernel`
(kernels.py 60-65), with `max_distance = sigma * n_std_dev`. -/
noncomputable def gaussianDecayF (sigma nStdDev : ℚ) (d : ℝ) : ℝ :=
  if ((sigma * nStdDev : ℚ) : ℝ) < d then 0
  else 1 / (2 * Real.pi * (sigma : ℝ) ^ 2) * Real.exp (-d ^ 2 / (2 * (sigma : ℝ) ^ 2))

/-- `dichotomous_kernel` (kernels.py 13-19): unnormalised. -/
noncomputable def dichotomous_kernel (md : ℚ) : KernelRaster :=
  createDistanceBasedKernel (dichotomousF md) md false

/-- `density_decay_kernel` (kernels.py 22-33): unnormalised. -/
noncomputable def density_decay_kernel (md : ℚ) : KernelRaster :=
  createDistanceBasedKernel (densityF md) md false

/-- `exponential_decay_kernel` (kernels.py 36-44): normalised. -/
noncomputable def exponential_decay_kernel (md : ℚ) : KernelRaster :=
  createDistanceBasedKernel (expDecayF md) md true

/-- `linear_decay_kernel` (kernels.py 47-54): normalised. -/
noncomputable def linear_decay_kernel (md : ℚ) : KernelRaster :=
  createDistanceBasedKernel (linearDecayF md) md true

/-- `gaussian_decay_kernel` (kernels.py 57-68): normalised, with maximum
distance `sigma * n_std_dev`. -/
noncomputable def gaussian_decay_kernel (sigma nStdDev : ℚ) : KernelRaster :=
  createDistanceBasedKernel (gaussianDecayF sigma nStdDev) (sigma * nStdDev) true

/-- Order on optional elevations with `none` as plus infinity (an undefined
fill value is above every defined one). -/
def ole {α : Type} [LinearOrder α] : Option α → Option α → Prop
  | _, none => True
  | none, some _ => False
  | some a, some b => a ≤ b

/-- Cells `a` and `b` are grid neighbours: `b` is the neighbour of `a` in one
of the eight compass directions. -/
def adjCell (h w : ℕ) (a b : ℕ × ℕ) : Prop :=
  ∃ d, d < 8 ∧ nbr h w a.1 a.2 d = some b

/-- The 11 x 11 plateau-drain D8 direction regression fixture (the
documented output of `flow_dir_d8` on a flat DEM, reused by the accumulation
and distance regression tests). -/
def d8RegDir : List (List ℕ) :=
  [[2, 2, 2, 2, 2, 2, 2, 2, 2, 2, 0],
   [4, 2, 2, 2, 2, 2, 2, 2, 2, 2, 0],
   [4, 4, 2, 2, 2, 2, 2, 2, 2, 0, 0],
   [4, 4, 4, 2, 2, 2, 2, 2, 0, 0, 0],
   [4, 4, 4, 4, 2, 2, 2, 0, 0, 0, 0],
   [4, 4, 4, 4, 4, 2, 0, 0, 0, 0, 0],
   [4, 4, 4, 4, 4, 6, 0, 0, 0, 0, 0],
   [4, 4, 4, 4, 6, 6, 6, 0, 0, 0, 0],
   [4, 4, 4, 6, 6, 6, 6, 6, 0, 0, 0],
   [4, 4, 6, 6, 6, 6, 6, 6, 6, 0, 0],
   [4, 6, 6, 6, 6, 6, 6, 6, 6, 6, 0]]

/-- The documented hand-computed D8 accumulation regression array. -/
def d8AccExpected : List (List ℤ) :=
  [[1, 2, 3, 4, 5, 6, 5, 4, 3, 2, 1],
   [1, 1, 2, 3, 4, 5, 4, 3, 2, 1, 1],
   [2, 1, 1, 2, 3, 4, 3, 2, 1, 1, 2],
   [3, 2, 1, 1, 2, 3, 2, 1, 1, 2, 3],
   [4, 3, 2, 1, 1, 2, 1, 1, 2, 3, 4],
   [5, 4, 3, 2, 1, 1, 1, 2, 3, 4, 5],
   [5, 4, 3, 2, 1, 1, 1, 2, 3, 4, 5],
   [4, 3, 2, 1, 1, 2, 1, 1, 2, 3, 4],
   [3, 2, 1, 1, 2, 3, 2, 1, 1, 2, 3],
   [2, 1, 1, 2, 3, 4, 3, 2, 1, 1, 2],
   [1, 1, 2, 3, 4, 5, 4, 3, 2, 1, 1]]

/-- The 11 x 11 pit-filling regression DEM: zero elevation with the interior
block rows 3-7, cols 3-7 at -1 and cell (0, 0) at -1. -/
def demPit : List (List ℚ) :=
  [[-1,0,0,0,0,0,0,0,0,0,0],
   [0,0,0,0,0,0,0,0,0,0,0],
   [0,0,0,0,0,0,0,0,0,0,0],
   [0,0,0,-1,-1,-1,-1,-1,0,0,0],
   [0,0,0,-1,-1,-1,-1,-1,0,0,0],
   [0,0,0,-1,-1,-1,-1,-1,0,0,0],
   [0,0,0,-1,-1,-1,-1,-1,0,0,0],
   [0,0,0,-1,-1,-1,-1,-1,0,0,0],
   [0,0,0,0,0,0,0,0,0,0,0],
   [0,0,0,0,0,0,0,0,0,0,0],
   [0,0,0,0,0,0,0,0,0,0,0]]

/-- The expected filled DEM: the interior pit block raised to 0, the
boundary pit cell (0, 0) unchanged. -/
def demPitFilled : List (List ℚ) :=
  [[-1,0,0,0,0,0,0,0,0,0,0],
   [0,0,0,0,0,0,0,0,0,0,0],
   [0,0,0,0,0,0,0,0,0,0,0],
   [0,0,0,0,0,0,0,0,0,0,0],
   [0,0,0,0,0,0,0,0,0,0,0],
   [0,0,0,0,0,0,0,0,0,0,0],
   [0,0,0,0,0,0,0,0,0,0,0],
   [0,0,0,0,0,0,0,0,0,0,0],
   [0,0,0,0,0,0,0,0,0,0,0],
   [0,0,0,0,0,0,0,0,0,0,0],
   [0,0,0,0,0,0,0,0,0,0,0]]

/-- The integer pit-filling regression DEM with nodata 9999 at cell (1, 1). -/
def demPitInt : List (List ℤ) :=
  [[-1,0,0,0,0,0,0,0,0,0,0],
   [0,9999,0,0,0,0,0,0,0,0,0],
   [0,0,0,0,0,0,0,0,0,0,0],
   [0,0,0,-1,-1,-1,-1,-1,0,0,0],
   [0,0,0,-1,-1,-1,-1,-1,0,0,0],
   [0,0,0,-1,-1,-1,-1,-1,0,0,0],
   [0,0,0,-1,-1,-1,-1,-1,0,0,0],
   [0,0,0,-1,-1,-1,-1,-1,0,0,0],
   [0,0,0,0,0,0,0,0,0,0,0],
   [0,0,0,0,0,0,0,0,0,0,0],
   [0,0,0,0,0,0,0,0,0,0,0]]

/-- The expected filled integer DEM: pit block raised to 0, cell (0, 0) and
the nodata cell unchanged. -/
def demPitIntFilled : List (List ℤ) :=
  [[-1,0,0,0,0,0,0,0,0,0,0],
   [0,9999,0,0,0,0,0,0,0,0,0],
   [0,0,0,0,0,0,0,0,0,0,0],
   [0,0,0,0,0,0,0,0,0,0,0],
   [0,0,0,0,0,0,0,0,0,0,0],
   [0,0,0,0,0,0,0,0,0,0,0],
   [0,0,0,0,0,0,0,0,0,0,0],
   [0,0,0,0,0,0,0,0,0,0,0],
   [0,0,0,0,0,0,0,0,0,0,0],
   [0,0,0,0,0,0,0,0,0,0,0],
   [0,0,0,0,0,0,0,0,0,0,0]]

/-- The documented ring-shaped channel grid of the D8 distance regression
test. -/
def chanRing : List (List ℕ) :=
  [[1,1,1,1,1,1,1,1,1,1,1],
   [1,0,0,0,0,0,0,0,0,0,1],
   [1,0,0,0,0,0,0,0,0,0,1],
   [1,0,0,0,0,0,0,0,0,0,1],
   [1,1,0,0,0,0,0,0,0,1,1],
   [1,1,0,0,0,0,0,0,0,1,1],
   [1,1,0,0,0,0,0,0,0,1,1],
   [1,0,0,0,0,0,0,0,0,0,1],
   [1,0,0,0,0,0,0,0,0,0,1],
   [1,0,0,0,0,0,0,0,0,0,1],
   [1,1,1,1,1,1,1,1,1,1,1]]

/-- A channel grid marking exactly the cells of row index 5. -/
def chanRow5 : List (List ℕ) :=
  [[0,0,0,0,0,0,0,0,0,0,0],
   [0,0,0,0,0,0,0,0,0,0,0],
   [0,0,0,0,0,0,0,0,0,0,0],
   [0,0,0,0,0,0,0,0,0,0,0],
   [0,0,0,0,0,0,0,0,0,0,0],
   [1,1,1,1,1,1,1,1,1,1,1],
   [0,0,0,0,0,0,0,0,0,0,0],
   [0,0,0,0,0,0,0,0,0,0,0],
   [0,0,0,0,0,0,0,0,0,0,0],
   [0,0,0,0,0,0,0,0,0,0,0],
   [0,0,0,0,0,0,0,0,0,0,0]]

/-- The documented hand-copied D8 distance-to-channel regression array for
the ring-shaped channel. -/
def d8DistExpected : List (List ℤ) :=
  [[0,0,0,0,0,0,0,0,0,0,0],
   [0,1,1,1,1,1,1,1,1,1,0],
   [0,1,2,2,2,2,2,2,2,1,0],
   [0,1,2,3,3,3,3,3,2,1,0],
   [0,0,1,2,4,4,4,2,1,0,0],
   [0,0,1,2,3,5,3,2,1,0,0],
   [0,0,1,2,3,4,3,2,1,0,0],
   [0,1,2,3,3,3,3,3,2,1,0],
   [0,1,2,2,2,2,2,2,2,1,0],
   [0,1,1,1,1,1,1,1,1,1,0],
   [0,0,0,0,0,0,0,0,0,0,0]]

/-- World-units area of the watershed polygon of label `l`: its cell count
times the pixel area given by the geotransform. -/
def labelArea (gt : GeoT) (labels : List (List (Option ℕ))) (l : ℕ) : ℚ :=
  (countLabel labels l : ℚ) * |gt.dx * gt.dy|

/-- The 7 × 7 D8 direction fixture of the watershed regression test. -/
def ws7Dir : List (List ℕ) :=
  [[0, 0, 0, 2, 4, 4, 6],
   [6, 0, 0, 2, 4, 4, 6],
   [6, 6, 0, 2, 4, 6, 6],
   [4, 4, 4, 2, 0, 0, 0],
   [2, 2, 0, 6, 4, 2, 2],
   [2, 0, 0, 6, 4, 4, 2],
   [2, 0, 0, 6, 4, 4, 4]]

/-- The geotransform of the watershed regression fixture:
origin (2, -2), pixel size 2 by -2. -/
def ws7GT : GeoT :=
  ⟨2, 2, -2, -2⟩

/-- The four outflow points of the watershed regression fixture. -/
def ws7Points : List (ℚ × ℚ) :=
  [(3, -9), (9, -3), (15, -9), (9, -15)]

/-- The outflow points rasterised to their containing cells. -/
def ws7Outs : List (ℕ × ℕ) :=
  ws7Points.map fun p => rasterize ws7GT p.1 p.2

/-- The watershed label grid of the regression fixture. -/
def ws7Labels : List (List (Option ℕ)) :=
  delineationLabels 7 7 (lookup ws7Dir 8) ws7Outs

theorem kernelSize_odd (md : ℚ) : Odd (kernelSize md) :=
  ⟨kernelRadius md, by rw [kernelSize, Nat.mul_comm]⟩

theorem distFromCenter_self (r : ℕ) : distFromCenter r r r = 0 := by
  simp [distFromCenter]

theorem distFromCenter_eq_zero {r y x : ℕ} (hd : distFromCenter r y x = 0) :
    y = r ∧ x = r := by
  rw [distFromCenter, Real.sqrt_eq_zero'] at hd
  have hy2 : (0 : ℝ) ≤ ((y : ℝ) - r) ^ 2 := sq_nonneg _
  have hx2 : (0 : ℝ) ≤ ((x : ℝ) - r) ^ 2 := sq_nonneg _
  have hzero : ((y : ℝ) - r) ^ 2 + ((x : ℝ) - r) ^ 2 = 0 := by
    linarith
  have hy : ((y : ℝ) - r) ^ 2 = 0 := by nlinarith
  have hx : ((x : ℝ) - r) ^ 2 = 0 := by nlinarith
  constructor
  · exact_mod_cast sub_eq_zero.mp (pow_eq_zero_iff (n := 2) (by norm_num) |>.mp hy)
  · exact_mod_cast sub_eq_zero.mp (pow_eq_zero_iff (n := 2) (by norm_num) |>.mp hx)

/-- C9: for every positive `max_distance`, `_create_distance_based_kernel`
(and hence each public kernel function) creates a square kernel raster whose
width and height both equal `2 * ceil(max_distance) + 1`, an odd number, so
there is a unique pixel whose distance from the centre is 0. -/
theorem claim_C9 (md sigma nStdDev : ℚ) (hmd : 0 < md)
    (hsig : 0 < sigma * nStdDev) :
    (∀ (f : ℝ → ℝ) (norm : Bool),
        (createDistanceBasedKernel f md norm).size = 2 * (Int.ceil md).toNat + 1) ∧
    (dichotomous_kernel md).size = 2 * (Int.ceil md).toNat + 1 ∧
    (density_decay_kernel md).size = 2 * (Int.ceil md).toNat + 1 ∧
    (exponential_decay_kernel md).size = 2 * (Int.ceil md).toNat + 1 ∧
    (linear_decay_kernel md).size = 2 * (Int.ceil md).toNat + 1 ∧
    (gaussian_decay_kernel sigma nStdDev).size
      = 2 * (Int.ceil (sigma * nStdDev)).toNat + 1 ∧
    Odd (kernelSize md) ∧
    (∃! p : ℕ × ℕ, p.1 < kernelSize md ∧ p.2 < kernelSize md ∧
      distFromCenter (kernelRadius md) p.1 p.2 = 0) := by
  refine ⟨fun f norm => rfl, rfl, rfl, rfl, rfl, rfl, kernelSize_odd md, ?_⟩
  refine ⟨(kernelRadius md, kernelRadius md), ⟨?_, ?_, distFromCenter_self _⟩, ?_⟩
  · show kernelRadius md < kernelSize md
    rw [kernelSize]; omega
  · show kernelRadius md < kernelSize md
    rw [kernelSize]; omega
  · rintro ⟨y, x⟩ ⟨-, -, hd⟩
    obtain ⟨hy, hx⟩ := distFromCenter_eq_zero hd
    exact Prod.ext hy hx

theorem claim_C9_witness :
    (0 : ℚ) < 3 / 2 ∧ (0 : ℚ) < 1 * 2 ∧
    ((dichotomous_kernel (3 / 2)).size = 2 * (Int.ceil (3 / 2 : ℚ)).toNat + 1 ∧
      Odd (kernelSize (3 / 2)) ∧ (gaussian_decay_kernel 1 2).size = 5) := by
  have h1 : (0 : ℚ) < 3 / 2 := by norm_num
  have h2 : (0 : ℚ) < 1 * 2 := by norm_num
  obtain ⟨-, hd, -, -, -, hg, hodd, -⟩ := claim_C9 (3 / 2) 1 2 h1 h2
  refine ⟨h1, h2, hd, hodd, ?_⟩
  rw [hg]
  norm_num [Int.ceil_eq_iff]
  decide

theorem kernel_sum_normalized (f : ℝ → ℝ) (md : ℚ)
    (hS : kernelRunningSum f md ≠ 0) :
    (∑ p ∈ Finset.range (kernelSize md) ×ˢ Finset.range (kernelSize md),
      (createDistanceBasedKernel f md true).val p.1 p.2) = 1 := by
  simp only [createDistanceBasedKernel, if_true]
  rw [← Finset.sum_div]
  rw [show (∑ p ∈ Finset.range (kernelSize md) ×ˢ Finset.range (kernelSize md),
      f (distFromCenter (kernelRadius md) p.1 p.2)) = kernelRunningSum f md from rfl]
  exact div_self hS

/-- C10: for the kernels built with `normalize=True` (exponential, linear,
gaussian), a second pass divides every pixel by the sum of all first-pass
values, so each final pixel equals its unnormalised value divided by the
unnormalised total and, when that total is nonzero, the final values sum
to 1; `dichotomous_kernel` and `density_decay_kernel` pass `normalize=False`
and their pixel values are written unscaled. -/
theorem claim_C10 (f : ℝ → ℝ) (md sigma nStdDev : ℚ)
    (hS : kernelRunningSum f md ≠ 0) :
    (∀ y x, (createDistanceBasedKernel f md true).val y x
      = f (distFromCenter (kernelRadius md) y x) / kernelRunningSum f md) ∧
    (∑ p ∈ Finset.range (kernelSize md) ×ˢ Finset.range (kernelSize md),
      (createDistanceBasedKernel f md true).val p.1 p.2) = 1 ∧
    exponential_decay_kernel md = createDistanceBasedKernel (expDecayF md) md true ∧
    linear_decay_kernel md = createDistanceBasedKernel (linearDecayF md) md true ∧
    gaussian_decay_kernel sigma nStdDev
      = createDistanceBasedKernel (gaussianDecayF sigma nStdDev) (sigma * nStdDev) true ∧
    (∀ y x, (dichotomous_kernel md).val y x
      = dichotomousF md (distFromCenter (kernelRadius md) y x)) ∧
    (∀ y x, (density_decay_kernel md).val y x
      = densityF md (distFromCenter (kernelRadius md) y x)) := by
  refine ⟨fun y x => rfl, kernel_sum_normalized f md hS, rfl, rfl, rfl,
    fun y x => ?_, fun y x => ?_⟩
  · simp [dichotomous_kernel, createDistanceBasedKernel]
  · simp [density_decay_kernel, createDistanceBasedKernel]

theorem claim_C10_witness :
    kernelRunningSum (fun _ => 1) 1 ≠ 0 ∧
    (∑ p ∈ Finset.range (kernelSize 1) ×ˢ Finset.range (kernelSize 1),
      (createDistanceBasedKernel (fun _ => 1) 1 true).val p.1 p.2) = 1 := by
  have hS : kernelRunningSum (fun _ => 1) 1 = 9 := by
    rw [kernelRunningSum]
    rw [Finset.sum_const]
    have hsz : kernelSize 1 = 3 := by
      norm_num [kernelSize, kernelRadius]
    rw [hsz]
    norm_num
  have hS0 : kernelRunningSum (fun _ => 1) 1 ≠ 0 := by rw [hS]; norm_num
  exact ⟨hS0, (claim_C10 (fun _ => 1) 1 1 1 hS0).2.1⟩

theorem ws7Outs_eval : ws7Outs = [(3, 0), (0, 3), (3, 6), (6, 3)] := by
  have h1 : rasterize ws7GT 3 (-9) = (3, 0) := by
    rw [rasterize]; norm_num [ws7GT]; decide
  have h2 : rasterize ws7GT 9 (-3) = (0, 3) := by
    rw [rasterize]; norm_num [ws7GT]; decide
  have h3 : rasterize ws7GT 15 (-9) = (3, 6) := by
    rw [rasterize]; norm_num [ws7GT]; decide
  have h4 : rasterize ws7GT 9 (-15) = (6, 3) := by
    rw [rasterize]; norm_num [ws7GT]; decide
  simp [ws7Outs, ws7Points, h1, h2, h3, h4]

theorem ws7Labels_eval :
    ws7Labels = delineationLabels 7 7 (lookup ws7Dir 8) [(3, 0), (0, 3), (3, 6), (6, 3)] := by
  rw [ws7Labels, ws7Outs_eval]

/-- C4: on the 7x7 watershed regression fixture with its four outflow
points, the four watershed polygons have areas 40, 60, 40 and 56 in world
units, every cell carries exactly one of the four labels (no gaps, no
overlaps), the four areas sum exactly to the raster's area, and the
watersheds touch pairwise according to the documented adjacency pattern
(all pairs adjacent except watersheds 0 and 2). -/
theorem claim_C4 :
    (labelArea ws7GT ws7Labels 0 = 40 ∧ labelArea ws7GT ws7Labels 1 = 60 ∧
     labelArea ws7GT ws7Labels 2 = 40 ∧ labelArea ws7GT ws7Labels 3 = 56) ∧
    (∀ i, i < 7 → ∀ j, j < 7 → ∃ l, l < 4 ∧ lookup ws7Labels none i j = some l) ∧
    labelArea ws7GT ws7Labels 0 + labelArea ws7GT ws7Labels 1 +
      labelArea ws7GT ws7Labels 2 + labelArea ws7GT ws7Labels 3
      = |ws7GT.dx * 7 * (ws7GT.dy * 7)| ∧
    (touches 7 7 ws7Labels 0 1 = true ∧ touches 7 7 ws7Labels 0 3 = true ∧
     touches 7 7 ws7Labels 0 2 = false ∧
     touches 7 7 ws7Labels 1 0 = true ∧ touches 7 7 ws7Labels 1 2 = true ∧
     touches 7 7 ws7Labels 1 3 = true ∧
     touches 7 7 ws7Labels 2 1 = true ∧ touches 7 7 ws7Labels 2 3 = true ∧
     touches 7 7 ws7Labels 2 0 = false ∧
     touches 7 7 ws7Labels 3 0 = true ∧ touches 7 7 ws7Labels 3 1 = true ∧
     touches 7 7 ws7Labels 3 2 = true) := by
  rw [ws7Labels_eval]
  have hc0 : countLabel (delineationLabels 7 7 (lookup ws7Dir 8)
      [(3, 0), (0, 3), (3, 6), (6, 3)]) 0 = 10 := by decide
  have hc1 : countLabel (delineationLabels 7 7 (lookup ws7Dir 8)
      [(3, 0), (0, 3), (3, 6), (6, 3)]) 1 = 15 := by decide
  have hc2 : countLabel (delineationLabels 7 7 (lookup ws7Dir 8)
      [(3, 0), (0, 3), (3, 6), (6, 3)]) 2 = 10 := by decide
  have hc3 : countLabel (delineationLabels 7 7 (lookup ws7Dir 8)
      [(3, 0), (0, 3), (3, 6), (6, 3)]) 3 = 14 := by decide
  refine ⟨⟨?_, ?_, ?_, ?_⟩, by decide, ?_, by decide⟩
  · rw [labelArea, hc0]; norm_num [ws7GT]
  · rw [labelArea, hc1]; norm_num [ws7GT]
  · rw [labelArea, hc2]; norm_num [ws7GT]
  · rw [labelArea, hc3]; norm_num [ws7GT]
  · rw [labelArea, hc0, labelArea, hc1, labelArea, hc2, labelArea, hc3]
    norm_num [ws7GT]

theorem iterate_eq_of_fix {α : Type} (f : α → α) (m n : ℕ) (x y : α)
    (hm : m ≤ n) (hy : f^[m] x = y) (hfix : f y = y) : f^[n] x = y := by
  obtain ⟨k, rfl⟩ := Nat.exists_eq_add_of_le hm
  rw [Nat.add_comm, Function.iterate_add_apply, hy, Function.iterate_fixed hfix]

/-- C8: `delineate_watersheds` does not mutate the input direction raster —
after the call the store holds the direction raster unchanged at its path —
and the caller-named scratch raster is left zeroed, retaining none of the
watershed labels written into it while tracing. -/
theorem claim_C8 (s : RasterStore) (dirPath scratchPath : String) (gt : GeoT)
    (points : List (ℚ × ℚ)) (hds : dirPath ≠ scratchPath) :
    (delineate_watersheds s dirPath scratchPath gt points).1 dirPath = s dirPath ∧
    (∀ dg, s dirPath = some dg →
      (delineate_watersheds s dirPath scratchPath gt points).1 scratchPath
        = some (materialize dg.length (dg.headD []).length fun _ _ => 0)) := by
  cases hdg : s dirPath with
  | none =>
    refine ⟨?_, fun dg hdg' => by simp at hdg'⟩
    simp [delineate_watersheds, hdg]
  | some dg =>
    refine ⟨?_, fun dg' hdg' => ?_⟩
    · simp only [delineate_watersheds, hdg, storeWrite]
      rw [if_neg hds, if_neg hds]
    · have hdd : dg = dg' := Option.some.inj hdg'
      subst hdd
      simp only [delineate_watersheds, hdg, storeWrite, if_pos rfl, eq_self_iff_true,
        if_true]

theorem claim_C8_witness :
    (let s : RasterStore := fun p => if p = "flow_dir" then some ws7Dir else none
     ("flow_dir" ≠ "scratch") ∧
     (delineate_watersheds s "flow_dir" "scratch" ws7GT ws7Points).1 "flow_dir"
        = s "flow_dir" ∧
     (delineate_watersheds s "flow_dir" "scratch" ws7GT ws7Points).1 "scratch"
        = some (materialize ws7Dir.length (ws7Dir.headD []).length fun _ _ => 0)) := by
  intro s
  have hne : "flow_dir" ≠ "scratch" := by decide
  have h := claim_C8 s "flow_dir" "scratch" ws7GT ws7Points hne
  exact ⟨hne, h.1, h.2 ws7Dir rfl⟩

/-- C7 counterexample: on the documented 11 x 11 plateau-drain D8 direction
grid with channel cells exactly the cells of row index 5, the D8
distance-to-channel output at the non-channel cell (0, 0) is unresolved
(`none`): it is not the value 0 recorded at that cell by the documented
regression array, and not any integer-ramp value, because no cell of that
direction grid outside row 5 drains to row 5. -/
theorem claim_C7_counterexample :
    lookup (distance_to_channel_d8 11 11 (lookup d8RegDir 8) (lookup chanRow5 0)
      (none : Option (ℕ → ℕ → ℤ))) none 0 0 = none ∧
    chanB (lookup chanRow5 0) 0 0 = false ∧
    lookup d8DistExpected 0 0 0 = 0 := by
  refine ⟨?_, by decide, by decide⟩
  decide

/-- C7 (amended): on the documented 11 x 11 plateau-drain D8 direction grid,
the D8 distance-to-channel output for the documented ring-shaped channel grid
matches the documented integer regression array (integer ramp values 0..5);
for the channel grid marking exactly row index 5, every channel cell has
distance 0 and every cell outside row 5 is unresolved — the symmetric
row-5-channel ramp configuration belongs to the MFD distance fixture, not to
the D8 one. -/
theorem claim_C7 :
    distance_to_channel_d8 11 11 (lookup d8RegDir 8) (lookup chanRing 0)
      (none : Option (ℕ → ℕ → ℤ))
      = d8DistExpected.map (List.map (fun n => some (⟨n, 0⟩ : Q2 ℤ))) ∧
    (∀ i, i < 11 → ∀ j, j < 11 →
      lookup (distance_to_channel_d8 11 11 (lookup d8RegDir 8) (lookup chanRow5 0)
        (none : Option (ℕ → ℕ → ℤ))) none i j
        = if i = 5 then some (⟨0, 0⟩ : Q2 ℤ) else none) := by
  constructor
  · apply iterate_eq_of_fix _ 8 _ _ _ (by norm_num)
    · decide
    · decide
  · decide

theorem ole_none_right {α : Type} [LinearOrder α] : ∀ x : Option α, ole x none
  | none => trivial
  | some _ => trivial

theorem ole_trans {α : Type} [LinearOrder α] {x y z : Option α} :
    ole x y → ole y z → ole x z := by
  intro h1 h2
  cases z with
  | none => exact ole_none_right x
  | some c =>
    cases y with
    | none => exact h2.elim
    | some b =>
      cases x with
      | none => exact h1.elim
      | some a => exact le_trans (α := α) h1 h2

theorem ole_refl {α : Type} [LinearOrder α] : ∀ x : Option α, ole x x
  | none => trivial
  | some _ => le_refl _

theorem ole_some_right {α : Type} [LinearOrder α] {x : Option α} {v : α}
    (h : ole x (some v)) : ∃ u, x = some u ∧ u ≤ v := by
  cases x with
  | none => exact h.elim
  | some u => exact ⟨u, rfl, h⟩

theorem foldr_omin2_eq_some {α : Type} [LinearOrder α] :
    ∀ {l : List (Option α)} {v : α}, l.foldr omin2 none = some v → some v ∈ l := by
  intro l
  induction l with
  | nil => intro v h; exact absurd h (by simp)
  | cons o t ih =>
    intro v h
    rw [List.foldr_cons] at h
    cases o with
    | none => exact List.mem_cons_of_mem _ (ih h)
    | some a =>
      cases ht : t.foldr omin2 none with
      | none =>
        rw [ht] at h
        simp only [omin2] at h
        rw [h]
        exact List.mem_cons_self _ _
      | some b =>
        rw [ht] at h
        simp only [omin2, Option.some.injEq] at h
        rcases min_choice a b with hab | hab
        · rw [hab] at h
          rw [← h]
          exact List.mem_cons_self _ _
        · rw [hab] at h
          rw [← h]
          exact List.mem_cons_of_mem _ (ih ht)

theorem foldr_omin2_isSome {α : Type} [LinearOrder α] :
    ∀ {l : List (Option α)} {y : α}, some y ∈ l → (l.foldr omin2 none).isSome := by
  intro l
  induction l with
  | nil => intro y h; exact absurd h (by simp)
  | cons o t ih =>
    intro y h
    rw [List.foldr_cons]
    rcases List.mem_cons.mp h with rfl | hmem
    · cases t.foldr omin2 none <;> rfl
    · have := ih hmem
      cases ht : t.foldr omin2 none with
      | none => rw [ht] at this; exact absurd this (by simp)
      | some b => cases o <;> simp [omin2]

theorem lookup_materialize_oob {α : Type} {h w : ℕ} (f : ℕ → ℕ → α) (d : α)
    {i j : ℕ} (hij : ¬(i < h ∧ j < w)) :
    lookup (materialize h w f) d i j = d := by
  by_cases hi : i < h
  · have hj : ¬ j < w := fun hj => hij ⟨hi, hj⟩
    have hrow : (materialize h w f).getD i [] = (List.range w).map (f i) := by
      rw [materialize, List.getD_eq_getElem?_getD, List.getElem?_map,
        List.getElem?_range hi]
      rfl
    rw [lookup, hrow, List.getD_eq_getElem?_getD,
      List.getElem?_eq_none (by simpa using Nat.le_of_not_lt hj)]
    rfl
  · have hrow : (materialize h w f).getD i [] = [] := by
      rw [List.getD_eq_getElem?_getD,
        List.getElem?_eq_none (by rw [materialize_length]; exact Nat.le_of_not_lt hi)]
      rfl
    rw [lookup, hrow]
    rfl

theorem fillIter_oob {α : Type} [LinearOrder α] [DecidableEq α] {h w : ℕ}
    (e : ℕ → ℕ → α) (nodata : Option α) (k : ℕ) {i j : ℕ}
    (hij : ¬(i < h ∧ j < w)) :
    lookup ((fillStep h w e nodata)^[k] (fillInit h w e nodata)) none i j = none := by
  cases k with
  | zero => exact lookup_materialize_oob _ _ hij
  | succ m =>
    rw [Function.iterate_succ_apply', fillStep]
    exact lookup_materialize_oob _ _ hij

theorem fillStep_lookup {α : Type} [LinearOrder α] [DecidableEq α] {h w : ℕ}
    (e : ℕ → ℕ → α) (nodata : Option α) (g : List (List (Option α))) {i j : ℕ}
    (hi : i < h) (hj : j < w) :
    lookup (fillStep h w e nodata g) none i j =
      (if isNod nodata (e i j) then none
       else if seedB h w e nodata i j then some (e i j)
       else ((List.range 8).map fun k =>
          match nbr h w i j k with
          | some n => (lookup g none n.1 n.2).map (fun y => max (e i j) y)
          | none => none).foldr omin2 none) := by
  rw [fillStep, lookup_materialize _ _ _ _ hi hj]

theorem fillInit_lookup {α : Type} [LinearOrder α] [DecidableEq α] {h w : ℕ}
    (e : ℕ → ℕ → α) (nodata : Option α) {i j : ℕ} (hi : i < h) (hj : j < w) :
    lookup (fillInit h w e nodata) none i j =
      (if isNod nodata (e i j) then none
       else if seedB h w e nodata i j then some (e i j) else none) := by
  rw [fillInit, lookup_materialize _ _ _ _ hi hj]

theorem fillIter_valid {α : Type} [LinearOrder α] [DecidableEq α] {h w : ℕ}
    (e : ℕ → ℕ → α) (nodata : Option α) (k : ℕ) {i j : ℕ} {v : α}
    (hv : lookup ((fillStep h w e nodata)^[k] (fillInit h w e nodata)) none i j
      = some v) :
    i < h ∧ j < w ∧ isNod nodata (e i j) = false ∧ e i j ≤ v := by
  by_cases hij : i < h ∧ j < w
  swap
  · rw [fillIter_oob e nodata k hij] at hv
    exact absurd hv (by simp)
  obtain ⟨hi, hj⟩ := hij
  refine ⟨hi, hj, ?_⟩
  cases k with
  | zero =>
    rw [Function.iterate_zero_apply, fillInit_lookup e nodata hi hj] at hv
    by_cases hnod : isNod nodata (e i j)
    · rw [if_pos hnod] at hv
      exact absurd hv (by simp)
    · rw [if_neg hnod] at hv
      by_cases hseed : seedB h w e nodata i j
      · rw [if_pos hseed] at hv
        exact ⟨by simpa using hnod, le_of_eq (Option.some.inj hv)⟩
      · rw [if_neg hseed] at hv
        exact absurd hv (by simp)
  | succ m =>
    rw [Function.iterate_succ_apply', fillStep_lookup e nodata _ hi hj] at hv
    by_cases hnod : isNod nodata (e i j)
    · rw [if_pos hnod] at hv
      exact absurd hv (by simp)
    · rw [if_neg hnod] at hv
      refine ⟨by simpa using hnod, ?_⟩
      by_cases hseed : seedB h w e nodata i j
      · rw [if_pos hseed] at hv
        exact le_of_eq (Option.some.inj hv)
      · rw [if_neg hseed] at hv
        have hmem := foldr_omin2_eq_some hv
        rw [List.mem_map] at hmem
        obtain ⟨d, -, hd⟩ := hmem
        split at hd
        · rw [Option.map_eq_some'] at hd
          obtain ⟨y, -, hy⟩ := hd
          rw [← hy]
          exact le_max_left _ _
        · exact absurd hd (by simp)

theorem omin2_ole_left {α : Type} [LinearOrder α] :
    ∀ a c : Option α, ole (omin2 a c) a
  | none, none => trivial
  | none, some _ => trivial
  | some _, none => le_refl _
  | some _, some _ => min_le_left _ _

theorem omin2_ole_right {α : Type} [LinearOrder α] :
    ∀ a c : Option α, ole (omin2 a c) c
  | none, none => trivial
  | none, some _ => le_refl _
  | some _, none => trivial
  | some _, some _ => min_le_right _ _

theorem ole_omin2 {α : Type} [LinearOrder α] :
    ∀ {x a c : Option α}, ole x a → ole x c → ole x (omin2 a c)
  | x, none, c, _, hxc => hxc
  | x, some a', none, hxa, _ => hxa
  | none, some _, some _, hxa, _ => hxa.elim
  | some _, some _, some _, hxa, hxc => le_min hxa hxc

theorem ole_map_max {α : Type} [LinearOrder α] (c : α) :
    ∀ {x y : Option α}, ole x y →
      ole (x.map fun t => max c t) (y.map fun t => max c t)
  | _, none, _ => ole_none_right _
  | none, some _, hxy => hxy.elim
  | some a, some b, hxy => max_le_max (le_refl c) hxy

theorem foldr_omin2_ole_map {α ι : Type} [LinearOrder α] (l : List ι)
    (f g : ι → Option α) (hfg : ∀ x ∈ l, ole (f x) (g x)) :
    ole ((l.map f).foldr omin2 none) ((l.map g).foldr omin2 none) := by
  induction l with
  | nil => exact ole_refl _
  | cons a t ih =>
    simp only [List.map_cons, List.foldr_cons]
    have ht := ih fun x hx => hfg x (List.mem_cons_of_mem _ hx)
    have ha := hfg a (List.mem_cons_self _ _)
    exact ole_omin2
      (ole_trans (omin2_ole_left _ _) ha)
      (ole_trans (omin2_ole_right _ _) ht)

theorem fillStep_ole {α : Type} [LinearOrder α] [DecidableEq α] {h w : ℕ}
    (e : ℕ → ℕ → α) (nodata : Option α) (g g' : List (List (Option α)))
    (hgg : ∀ a b, ole (lookup g none a b) (lookup g' none a b)) (i j : ℕ) :
    ole (lookup (fillStep h w e nodata g) none i j)
      (lookup (fillStep h w e nodata g') none i j) := by
  by_cases hij : i < h ∧ j < w
  · obtain ⟨hi, hj⟩ := hij
    rw [fillStep_lookup e nodata g hi hj, fillStep_lookup e nodata g' hi hj]
    by_cases hnod : isNod nodata (e i j)
    · rw [if_pos hnod, if_pos hnod]
      trivial
    · rw [if_neg hnod, if_neg hnod]
      by_cases hseed : seedB h w e nodata i j
      · rw [if_pos hseed, if_pos hseed]
        exact ole_refl _
      · rw [if_neg hseed, if_neg hseed]
        apply foldr_omin2_ole_map
        intro d _
        cases hn : nbr h w i j d with
        | none => simp only [hn]; trivial
        | some n => simp only [hn]; exact ole_map_max _ (hgg n.1 n.2)
  · rw [fillStep, lookup_materialize_oob _ _ hij, fillStep, lookup_materialize_oob _ _ hij]
    trivial

theorem fillIter_antitone {α : Type} [LinearOrder α] [DecidableEq α] {h w : ℕ}
    (e : ℕ → ℕ → α) (nodata : Option α) (k : ℕ) (i j : ℕ) :
    ole (lookup ((fillStep h w e nodata)^[k + 1] (fillInit h w e nodata)) none i j)
      (lookup ((fillStep h w e nodata)^[k] (fillInit h w e nodata)) none i j) := by
  induction k generalizing i j with
  | zero =>
    by_cases hij : i < h ∧ j < w
    · obtain ⟨hi, hj⟩ := hij
      rw [Function.iterate_one, Function.iterate_zero_apply,
        fillStep_lookup e nodata _ hi hj, fillInit_lookup e nodata hi hj]
      by_cases hnod : isNod nodata (e i j)
      · rw [if_pos hnod, if_pos hnod]; trivial
      · rw [if_neg hnod, if_neg hnod]
        by_cases hseed : seedB h w e nodata i j
        · rw [if_pos hseed, if_pos hseed]; exact ole_refl _
        · rw [if_neg hseed, if_neg hseed]; exact ole_none_right _
    · have o1 : lookup ((fillStep h w e nodata)^[0 + 1] (fillInit h w e nodata))
          none i j = none := fillIter_oob e nodata _ hij
      have o0 : lookup ((fillStep h w e nodata)^[0] (fillInit h w e nodata))
          none i j = none := fillIter_oob e nodata _ hij
      rw [o1, o0]
      trivial
  | succ m ih =>
    have h1 : (fillStep h w e nodata)^[m + 1 + 1] (fillInit h w e nodata)
        = fillStep h w e nodata
            ((fillStep h w e nodata)^[m + 1] (fillInit h w e nodata)) :=
      Function.iterate_succ_apply' _ _ _
    have h2 : (fillStep h w e nodata)^[m + 1] (fillInit h w e nodata)
        = fillStep h w e nodata
            ((fillStep h w e nodata)^[m] (fillInit h w e nodata)) :=
      Function.iterate_succ_apply' _ _ _
    rw [h1, h2]
    rw [h2] at ih
    exact fillStep_ole e nodata _ _ ih i j

theorem fillIter_ole_of_le {α : Type} [LinearOrder α] [DecidableEq α] {h w : ℕ}
    (e : ℕ → ℕ → α) (nodata : Option α) {k m : ℕ} (hkm : k ≤ m) (i j : ℕ) :
    ole (lookup ((fillStep h w e nodata)^[m] (fillInit h w e nodata)) none i j)
      (lookup ((fillStep h w e nodata)^[k] (fillInit h w e nodata)) none i j) := by
  induction m with
  | zero =>
    cases Nat.le_zero.mp hkm
    exact ole_refl _
  | succ n ih =>
    rcases Nat.lt_or_ge k (n + 1) with hlt | hge
    · exact ole_trans (fillIter_antitone e nodata n i j) (ih (Nat.lt_succ_iff.mp hlt))
    · cases Nat.le_antisymm hkm hge
      exact ole_refl _

theorem fillIter_seed {α : Type} [LinearOrder α] [DecidableEq α] {h w : ℕ}
    (e : ℕ → ℕ → α) (nodata : Option α) {k : ℕ} (hk : 1 ≤ k) {i j : ℕ}
    (hi : i < h) (hj : j < w) (hnod : isNod nodata (e i j) = false)
    (hseed : seedB h w e nodata i j = true) :
    lookup ((fillStep h w e nodata)^[k] (fillInit h w e nodata)) none i j
      = some (e i j) := by
  cases k with
  | zero => exact absurd hk (by norm_num)
  | succ m =>
    rw [Function.iterate_succ_apply', fillStep_lookup e nodata _ hi hj,
      if_neg (by simp [hnod]), if_pos hseed]

theorem nbr_west {h w i j : ℕ} (hi : i < h) (hj : j + 1 < w) :
    nbr h w i (j + 1) 4 = some (i, j) := by
  simp only [nbr, dirOffset]
  rw [if_pos]
  · simp only [Option.some.injEq, Prod.mk.injEq]
    omega
  · refine ⟨by omega, by omega, by omega, by omega⟩

theorem fillIter_defined {α : Type} [LinearOrder α] [DecidableEq α] {h w : ℕ}
    (e : ℕ → ℕ → α) (nodata : Option α) (j : ℕ) :
    ∀ i, i < h → j < w → isNod nodata (e i j) = false →
      ∃ v, lookup ((fillStep h w e nodata)^[j + 1] (fillInit h w e nodata)) none i j
        = some v := by
  induction j with
  | zero =>
    intro i hi hj hnod
    refine ⟨e i 0, fillIter_seed e nodata (le_refl 1) hi hj hnod ?_⟩
    rw [seedB]
    simp
  | succ j' ih =>
    intro i hi hj hnod
    by_cases hseed : seedB h w e nodata i (j' + 1)
    · exact ⟨e i (j' + 1), fillIter_seed e nodata (by omega) hi hj hnod hseed⟩
    · have hwnod : isNod nodata (e i j') = false := by
        by_contra hc
        have hc' : isNod nodata (e i j') = true := by
          cases hx : isNod nodata (e i j')
          · exact absurd hx hc
          · rfl
        refine hseed ?_
        rw [seedB]
        refine Bool.or_eq_true_iff.mpr (Or.inr ?_)
        rw [List.any_eq_true]
        refine ⟨4, by simp, ?_⟩
        rw [nbr_west hi hj]
        exact hc'
      obtain ⟨y, hy⟩ := ih i hi (by omega) hwnod
      rw [Function.iterate_succ_apply', fillStep_lookup e nodata _ hi hj,
        if_neg (by simp [hnod]), if_neg hseed]
      have hmem : some (max (e i (j' + 1)) y) ∈ (List.range 8).map fun k =>
          match nbr h w i (j' + 1) k with
          | some n =>
              (lookup ((fillStep h w e nodata)^[j' + 1] (fillInit h w e nodata))
                none n.1 n.2).map (fun t => max (e i (j' + 1)) t)
          | none => none := by
        rw [List.mem_map]
        refine ⟨4, by simp, ?_⟩
        simp only [nbr_west hi hj, hy, Option.map_some']
      have hsome := foldr_omin2_isSome hmem
      obtain ⟨v, hv⟩ := Option.isSome_iff_exists.mp hsome
      exact ⟨v, hv⟩

theorem fill_drain_path {α : Type} [LinearOrder α] [DecidableEq α] {h w : ℕ}
    (e : ℕ → ℕ → α) (nodata : Option α) :
    ∀ (k : ℕ) (i j : ℕ) (v : α),
      lookup ((fillStep h w e nodata)^[k] (fillInit h w e nodata)) none i j = some v →
      ∃ l : List (ℕ × ℕ), l.head? = some (i, j) ∧ l.Chain' (adjCell h w) ∧
        (∃ c ∈ l, seedB h w e nodata c.1 c.2 = true) ∧
        (∀ c ∈ l, c.1 < h ∧ c.2 < w ∧ isNod nodata (e c.1 c.2) = false ∧
          ∃ k' u, k' ≤ k ∧ u ≤ v ∧
            lookup ((fillStep h w e nodata)^[k'] (fillInit h w e nodata)) none c.1 c.2
              = some u) := by
  intro k
  induction k with
  | zero =>
    intro i j v hv
    obtain ⟨hi, hj, hnod, hev⟩ := fillIter_valid e nodata 0 hv
    have hv' := hv
    rw [Function.iterate_zero_apply, fillInit_lookup e nodata hi hj,
      if_neg (by simp [hnod])] at hv'
    by_cases hseed : seedB h w e nodata i j
    · refine ⟨[(i, j)], rfl, List.chain'_singleton _, ⟨(i, j), by simp, hseed⟩, ?_⟩
      rintro c hc
      rw [List.mem_singleton] at hc
      subst hc
      exact ⟨hi, hj, hnod, 0, v, le_refl 0, le_refl v, hv⟩
    · rw [if_neg hseed] at hv'
      exact absurd hv' (by simp)
  | succ m ih =>
    intro i j v hv
    obtain ⟨hi, hj, hnod, hev⟩ := fillIter_valid e nodata (m + 1) hv
    have hv' := hv
    rw [Function.iterate_succ_apply', fillStep_lookup e nodata _ hi hj,
      if_neg (by simp [hnod])] at hv'
    by_cases hseed : seedB h w e nodata i j
    · rw [if_pos hseed] at hv'
      refine ⟨[(i, j)], rfl, List.chain'_singleton _, ⟨(i, j), by simp, hseed⟩, ?_⟩
      rintro c hc
      rw [List.mem_singleton] at hc
      subst hc
      exact ⟨hi, hj, hnod, m + 1, v, le_refl _, le_refl v, hv⟩
    · rw [if_neg hseed] at hv'
      have hmem := foldr_omin2_eq_some hv'
      rw [List.mem_map] at hmem
      obtain ⟨d, hdmem, hd⟩ := hmem
      rw [List.mem_range] at hdmem
      rcases hn : nbr h w i j d with - | n
      · rw [hn] at hd
        simp at hd
      · rw [hn] at hd
        simp only [Option.map_eq_some'] at hd
        obtain ⟨y, hy, hvy⟩ := hd
        have hyv : y ≤ v := by
          rw [← hvy]
          exact le_max_right _ _
        obtain ⟨l', hhead, hchain, hseedmem, hprops⟩ := ih n.1 n.2 y hy
        refine ⟨(i, j) :: l', rfl, ?_, ?_, ?_⟩
        · rw [List.chain'_cons']
          refine ⟨?_, hchain⟩
          intro b hb
          rw [hhead] at hb
          cases hb
          exact ⟨d, hdmem, by rw [hn]⟩
        · obtain ⟨c, hcmem, hcseed⟩ := hseedmem
          exact ⟨c, List.mem_cons_of_mem _ hcmem, hcseed⟩
        · rintro c hc
          rcases List.mem_cons.mp hc with rfl | hcmem
          · exact ⟨hi, hj, hnod, m + 1, v, le_refl _, le_refl v, hv⟩
          · obtain ⟨hc1, hc2, hc3, k', u, hk', hu, hlu⟩ := hprops c hcmem
            exact ⟨hc1, hc2, hc3, k', u, Nat.le_succ_of_le hk', le_trans hu hyv, hlu⟩

set_option maxRecDepth 10000 in
set_option maxHeartbeats 2000000 in
/-- C2: `fill_pits` produces a raster of identical shape and cell type as
its input in which no interior depression traps flow — every valid cell's
filled value is defined, at least its original elevation, and admits a path
of grid-adjacent valid cells, never rising above that filled value, that
reaches a drain (a boundary or nodata-adjacent cell); nodata cells pass
through unchanged.  On the 11 x 11 regression DEM (float cells, modelled in
ℚ) the interior -1 block [3:8, 3:8] is raised to the surrounding elevation 0
while the boundary cell (0, 0) keeps its original elevation -1, and on the
int32 variant (modelled in ℤ, nodata 9999) the same holds with the nodata
cell passed through. -/
theorem claim_C2 :
    (∀ (α : Type) [LinearOrder α] [DecidableEq α] (h w : ℕ) (e : ℕ → ℕ → α)
        (nodata : Option α),
      (fill_pits h w e nodata).length = h ∧
      ∀ row ∈ fill_pits h w e nodata, row.length = w) ∧
    (∀ (α : Type) [LinearOrder α] [DecidableEq α] (h w : ℕ) (e : ℕ → ℕ → α)
        (nodata : Option α) (i j : ℕ), i < h → j < w →
        isNod nodata (e i j) = false →
      ∃ v, lookup (fillVals h w e nodata) none i j = some v ∧
        lookup (fill_pits h w e nodata) (e i j) i j = v ∧
        e i j ≤ v ∧
        ∃ l : List (ℕ × ℕ), l.head? = some (i, j) ∧ l.Chain' (adjCell h w) ∧
          (∃ c ∈ l, seedB h w e nodata c.1 c.2 = true) ∧
          (∀ c ∈ l, c.1 < h ∧ c.2 < w ∧ isNod nodata (e c.1 c.2) = false ∧
            ∃ u, u ≤ v ∧ lookup (fillVals h w e nodata) none c.1 c.2 = some u)) ∧
    (∀ (α : Type) [LinearOrder α] [DecidableEq α] (h w : ℕ) (e : ℕ → ℕ → α)
        (nodata : Option α) (i j : ℕ), i < h → j < w →
        isNod nodata (e i j) = true →
      lookup (fill_pits h w e nodata) (e i j) i j = e i j) ∧
    fill_pits 11 11 (lookup demPit 0) none = demPitFilled ∧
    fill_pits 11 11 (lookup demPitInt 0) (some 9999) = demPitIntFilled := by
  refine ⟨?_, ?_, ?_, ?_, ?_⟩
  · intro α _ _ h w e nodata
    exact ⟨materialize_length _ _ _, materialize_row_length _ _ _⟩
  · intro α _ _ h w e nodata i j hi hj hnod
    have hwle : j + 1 ≤ h * w := by
      calc j + 1 ≤ w := hj
        _ ≤ h * w := Nat.le_mul_of_pos_left w (by omega)
    obtain ⟨v0, hv0⟩ := fillIter_defined e nodata j i hi hj hnod
    have hole : ole
        (lookup ((fillStep h w e nodata)^[h * w] (fillInit h w e nodata)) none i j)
        (lookup ((fillStep h w e nodata)^[j + 1] (fillInit h w e nodata)) none i j) :=
      fillIter_ole_of_le e nodata hwle i j
    rw [hv0] at hole
    obtain ⟨v, hv, hvle⟩ := ole_some_right hole
    have hfill : lookup (fill_pits h w e nodata) (e i j) i j = v := by
      rw [fill_pits, lookup_materialize _ _ _ _ hi hj, if_neg (by simp [hnod])]
      rw [show lookup (fillVals h w e nodata) none i j = some v from hv]
      rfl
    have hev : e i j ≤ v := (fillIter_valid e nodata (h * w) hv).2.2.2
    obtain ⟨l, hhead, hchain, hseedmem, hprops⟩ :=
      fill_drain_path e nodata (h * w) i j v hv
    refine ⟨v, hv, hfill, hev, l, hhead, hchain, hseedmem, ?_⟩
    intro c hc
    obtain ⟨hc1, hc2, hc3, k', u, hk', hu, hlu⟩ := hprops c hc
    have hole2 : ole
        (lookup ((fillStep h w e nodata)^[h * w] (fillInit h w e nodata)) none c.1 c.2)
        (lookup ((fillStep h w e nodata)^[k'] (fillInit h w e nodata)) none c.1 c.2) :=
      fillIter_ole_of_le e nodata hk' c.1 c.2
    rw [hlu] at hole2
    obtain ⟨u', hu', hule⟩ := ole_some_right hole2
    exact ⟨hc1, hc2, hc3, u', le_trans hule hu, hu'⟩
  · intro α _ _ h w e nodata i j hi hj hnod
    rw [fill_pits, lookup_materialize _ _ _ _ hi hj, if_pos hnod]
  · have hv : fillVals 11 11 (lookup demPit 0) none
        = demPitFilled.map (List.map some) := by
      apply iterate_eq_of_fix _ 8 _ _ _ (by norm_num)
      · decide
      · decide
    rw [fill_pits, hv]
    decide
  · have hv : fillVals 11 11 (lookup demPitInt 0) (some 9999)
        = materialize 11 11 fun i j =>
            if i = 1 ∧ j = 1 then none else some (lookup demPitIntFilled 0 i j) := by
      apply iterate_eq_of_fix _ 8 _ _ _ (by norm_num)
      · decide
      · decide
    rw [fill_pits, hv]
    decide

theorem claim_C2_witness :
    ((5 : ℕ) < 11 ∧ isNod (none : Option ℚ) (lookup demPit 0 5 5) = false) ∧
    (∃ v, lookup (fillVals 11 11 (lookup demPit 0) (none : Option ℚ)) none 5 5
        = some v ∧
      lookup (fill_pits 11 11 (lookup demPit 0) none) (lookup demPit 0 5 5) 5 5 = v ∧
      lookup demPit 0 5 5 ≤ v ∧
      ∃ l : List (ℕ × ℕ), l.head? = some (5, 5) ∧ l.Chain' (adjCell 11 11) ∧
        (∃ c ∈ l, seedB 11 11 (lookup demPit 0) none c.1 c.2 = true) ∧
        (∀ c ∈ l, c.1 < 11 ∧ c.2 < 11 ∧
          isNod none (lookup demPit 0 c.1 c.2) = false ∧
          ∃ u, u ≤ v ∧
            lookup (fillVals 11 11 (lookup demPit 0) none) none c.1 c.2 = some u)) :=
  ⟨⟨by norm_num, by decide⟩,
    claim_C2.2.1 ℚ 11 11 (lookup demPit 0) none 5 5 (by norm_num) (by norm_num)
      (by decide)⟩

theorem asum_eq_zero {α : Type} [AddZeroClass α] :
    ∀ {l : List α}, (∀ x ∈ l, x = 0) → asum l = 0 := by
  intro l
  induction l with
  | nil => intro _; rfl
  | cons a t ih =>
    intro hl
    rw [asum, List.foldr_cons]
    rw [hl a (List.mem_cons_self _ _), show t.foldr (fun a b => a + b) 0 = asum t from rfl,
      ih fun x hx => hl x (List.mem_cons_of_mem _ hx), add_zero]

theorem asum_nonneg {l : List ℚ} (hl : ∀ x ∈ l, 0 ≤ x) : 0 ≤ asum l := by
  induction l with
  | nil => exact le_refl 0
  | cons a t ih =>
    rw [asum, List.foldr_cons]
    exact add_nonneg (hl a (List.mem_cons_self _ _))
      (ih fun x hx => hl x (List.mem_cons_of_mem _ hx))

theorem asum_map_congr {α ι : Type} [Add α] [Zero α] (l : List ι) (f g : ι → α)
    (hfg : ∀ x ∈ l, f x = g x) : asum (l.map f) = asum (l.map g) := by
  rw [List.map_congr_left hfg]

theorem d8next_some_elim {h w : ℕ} {dir : ℕ → ℕ → ℕ} {u c : ℕ × ℕ}
    (hu : d8next h w dir u = some c) :
    u.1 < h ∧ u.2 < w ∧ dir u.1 u.2 < 8 ∧ c.1 < h ∧ c.2 < w ∧ dir c.1 c.2 < 8 := by
  rw [d8next] at hu
  by_cases hb : u.1 < h ∧ u.2 < w ∧ dir u.1 u.2 < 8
  swap
  · rw [if_neg hb] at hu
    exact absurd hu (by simp)
  rw [if_pos hb] at hu
  refine ⟨hb.1, hb.2.1, hb.2.2, ?_⟩
  rcases hn : nbr h w u.1 u.2 (dir u.1 u.2) with - | n
  · rw [hn] at hu
    exact absurd hu (by simp)
  · rw [hn] at hu
    simp only at hu
    by_cases hnod : dir n.1 n.2 < 8
    · rw [if_pos hnod] at hu
      cases Option.some.inj hu
      refine ⟨?_, ?_, hnod⟩
      · rw [nbr] at hn
        split at hn
        · rename_i hcond
          cases Option.some.inj hn
          simp only []
          omega
        · exact absurd hn (by simp)
      · rw [nbr] at hn
        split at hn
        · rename_i hcond
          cases Option.some.inj hn
          simp only []
          omega
        · exact absurd hn (by simp)
    · rw [if_neg hnod] at hu
      exact absurd hu (by simp)

theorem iterD8_none_step {h w : ℕ} (dir : ℕ → ℕ → ℕ) (m : ℕ) :
    (fun oc => Option.bind oc (d8next h w dir))^[m] none = none :=
  Function.iterate_fixed rfl m

theorem iterD8_lt_of_none {h w : ℕ} {dir : ℕ → ℕ → ℕ} {u c : ℕ × ℕ} {n m : ℕ}
    (hn : iterD8 h w dir n u = none) (hm : iterD8 h w dir m u = some c) : m < n := by
  by_contra hmn
  have hge : n ≤ m := Nat.le_of_not_lt hmn
  obtain ⟨d, rfl⟩ := Nat.exists_eq_add_of_le hge
  rw [iterD8, Nat.add_comm, Function.iterate_add_apply] at hm
  rw [iterD8] at hn
  rw [hn, iterD8_none_step] at hm
  exact absurd hm (by simp)

theorem iterD8_succ_of_next {h w : ℕ} {dir : ℕ → ℕ → ℕ} {u c v : ℕ × ℕ} {m : ℕ}
    (hu : d8next h w dir u = some c) (hm : iterD8 h w dir m v = some u) :
    iterD8 h w dir (m + 1) v = some c := by
  rw [iterD8, Function.iterate_succ_apply']
  rw [iterD8] at hm
  rw [hm]
  exact hu

theorem acyclic_chainbound {h w : ℕ} {dir : ℕ → ℕ → ℕ}
    (hac : AcyclicD8 h w dir) {c u : ℕ × ℕ} {m : ℕ}
    (hm : iterD8 h w dir m u = some c) : m ≤ h * w - 1 := by
  cases m with
  | zero => exact Nat.zero_le _
  | succ m' =>
    have hstep : iterD8 h w dir (m' + 1) u
        = (fun oc => Option.bind oc (d8next h w dir))^[m'] (d8next h w dir u) := by
      rw [iterD8, Function.iterate_succ_apply]
      rfl
    rcases hnext : d8next h w dir u with - | u1
    · rw [hstep, hnext, iterD8_none_step] at hm
      exact absurd hm (by simp)
    · obtain ⟨hu1, hu2, -⟩ := d8next_some_elim hnext
      obtain ⟨n, hn, hnone⟩ := hac u.1 u.2 hu1 hu2
      have hlt : m' + 1 < n := iterD8_lt_of_none (by rwa [show ((u.1, u.2) : ℕ × ℕ) = u from rfl] at hnone) hm
      omega

theorem accIter_oob {h w : ℕ} (dir : ℕ → ℕ → ℕ) (wt : ℕ → ℕ → ℚ) (k : ℕ)
    {i j : ℕ} (hij : ¬(i < h ∧ j < w)) :
    lookup ((accStepD8 h w dir wt)^[k] (materialize h w wt)) 0 i j = 0 := by
  cases k with
  | zero => exact lookup_materialize_oob _ _ hij
  | succ m =>
    rw [Function.iterate_succ_apply', accStepD8]
    exact lookup_materialize_oob _ _ hij

theorem accStep_lookup {α : Type} [Add α] [Zero α] {h w : ℕ} (dir : ℕ → ℕ → ℕ)
    (wt : ℕ → ℕ → α) (prev : List (List α)) {i j : ℕ} (hi : i < h) (hj : j < w) :
    lookup (accStepD8 h w dir wt prev) 0 i j
      = wt i j + upstreamSumD8 h w dir (lookup prev 0) i j := by
  rw [accStepD8, lookup_materialize _ _ _ _ hi hj]

theorem accIter_stab {h w : ℕ} (dir : ℕ → ℕ → ℕ) (wt : ℕ → ℕ → ℚ) :
    ∀ (k : ℕ) (i j : ℕ), i < h → j < w → dir i j < 8 →
      (∀ (u : ℕ × ℕ) (m : ℕ), iterD8 h w dir m u = some (i, j) → m ≤ k) →
      lookup ((accStepD8 h w dir wt)^[k + 1] (materialize h w wt)) 0 i j
        = lookup ((accStepD8 h w dir wt)^[k] (materialize h w wt)) 0 i j := by
  intro k
  induction k with
  | zero =>
    intro i j hi hj hdir hchain
    rw [Function.iterate_one, accStep_lookup dir wt _ hi hj,
      Function.iterate_zero_apply, lookup_materialize _ _ _ _ hi hj]
    rw [upstreamSumD8, asum_eq_zero, add_zero]
    intro x hx
    rw [List.mem_map] at hx
    obtain ⟨d, -, hd⟩ := hx
    rcases hn : nbr h w i j ((d + 4) % 8) with - | u
    · rw [hn] at hd
      exact hd.symm
    · rw [hn] at hd
      by_cases hflow : d8next h w dir u = some (i, j)
      · exfalso
        have h1 : iterD8 h w dir (0 + 1) u = some (i, j) :=
          iterD8_succ_of_next hflow (by rw [iterD8, Function.iterate_zero_apply])
        exact absurd (hchain u 1 (by rwa [Nat.zero_add] at h1)) (by norm_num)
      · rw [← hd]
        simp only [if_neg hflow]
  | succ m ih =>
    intro i j hi hj hdir hchain
    have e2 : (accStepD8 h w dir wt)^[m + 1 + 1] (materialize h w wt)
        = accStepD8 h w dir wt ((accStepD8 h w dir wt)^[m + 1] (materialize h w wt)) :=
      Function.iterate_succ_apply' _ _ _
    have e1 : (accStepD8 h w dir wt)^[m + 1] (materialize h w wt)
        = accStepD8 h w dir wt ((accStepD8 h w dir wt)^[m] (materialize h w wt)) :=
      Function.iterate_succ_apply' _ _ _
    rw [e2, accStep_lookup dir wt _ hi hj]
    conv_rhs => rw [e1, accStep_lookup dir wt _ hi hj]
    rw [upstreamSumD8, upstreamSumD8]
    refine congrArg (fun t => wt i j + t) (asum_map_congr _ _ _ ?_)
    intro d _
    rcases hn : nbr h w i j ((d + 4) % 8) with - | u
    · rfl
    · simp only []
      by_cases hflow : d8next h w dir u = some (i, j)
      · rw [if_pos hflow, if_pos hflow]
        obtain ⟨hu1, hu2, hu3, -⟩ := d8next_some_elim hflow
        refine ih u.1 u.2 hu1 hu2 hu3 ?_
        intro v m' hm'
        have := hchain v (m' + 1) (iterD8_succ_of_next hflow (by exact hm'))
        omega
      · rw [if_neg hflow, if_neg hflow]

theorem accIter_nonneg {h w : ℕ} (dir : ℕ → ℕ → ℕ) (wt : ℕ → ℕ → ℚ)
    (hwt : ∀ a b, 0 ≤ wt a b) :
    ∀ (k : ℕ) (i j : ℕ),
      0 ≤ lookup ((accStepD8 h w dir wt)^[k] (materialize h w wt)) 0 i j := by
  intro k
  induction k with
  | zero =>
    intro i j
    by_cases hij : i < h ∧ j < w
    · rw [Function.iterate_zero_apply, lookup_materialize _ _ _ _ hij.1 hij.2]
      exact hwt i j
    · rw [Function.iterate_zero_apply, lookup_materialize_oob _ _ hij]
  | succ m ih =>
    intro i j
    by_cases hij : i < h ∧ j < w
    · rw [Function.iterate_succ_apply', accStep_lookup dir wt _ hij.1 hij.2]
      refine add_nonneg (hwt i j) (asum_nonneg ?_)
      intro x hx
      rw [List.mem_map] at hx
      obtain ⟨d, -, hd⟩ := hx
      rcases hn : nbr h w i j ((d + 4) % 8) with - | u
      · rw [hn] at hd
        simp only at hd
        rw [← hd]
      · rw [hn] at hd
        simp only at hd
        rw [← hd]
        by_cases hflow : d8next h w dir u = some (i, j)
        · rw [if_pos hflow]
          exact ih u.1 u.2
        · rw [if_neg hflow]
    · rw [accIter_oob dir wt _ hij]

set_option maxRecDepth 10000 in
set_option maxHeartbeats 2000000 in
/-- C1 (amended): under any acyclic D8 direction grid, every valid
non-nodata cell of the flow accumulation grid equals its own weight plus the
sum of the accumulation values of the neighbours whose direction points at
it; when the weight grid is nonnegative (as the default uniform weight 1.0
is), every cell's accumulation is at least its own weight; and on the
documented 11 x 11 regression direction grid with the default weight the
output equals the hand-computed symmetric pyramid array, whose maximum value
is 6. -/
theorem claim_C1 :
    (∀ (h w : ℕ) (dir : ℕ → ℕ → ℕ) (wt : ℕ → ℕ → ℚ) (i j : ℕ),
        AcyclicD8 h w dir → i < h → j < w → dir i j < 8 →
        lookup (flow_accumulation_d8 h w dir wt) 0 i j
          = wt i j +
            upstreamSumD8 h w dir (lookup (flow_accumulation_d8 h w dir wt) 0) i j) ∧
    (∀ (h w : ℕ) (dir : ℕ → ℕ → ℕ) (wt : ℕ → ℕ → ℚ) (i j : ℕ),
        (∀ a b, 0 ≤ wt a b) → i < h → j < w →
        wt i j ≤ lookup (flow_accumulation_d8 h w dir wt) 0 i j) ∧
    flow_accumulation_d8 11 11 (lookup d8RegDir 8) (fun _ _ => (1 : ℤ))
      = d8AccExpected ∧
    d8AccExpected.flatten.foldr max 0 = 6 := by
  refine ⟨?_, ?_, ?_, by decide⟩
  · intro h w dir wt i j hac hi hj hdir
    have hpos : 0 < h * w := Nat.mul_pos (by omega) (by omega)
    obtain ⟨M, hM⟩ : ∃ M, h * w = M + 1 := ⟨h * w - 1, by omega⟩
    have e : (accStepD8 h w dir wt)^[h * w] (materialize h w wt)
        = accStepD8 h w dir wt ((accStepD8 h w dir wt)^[M] (materialize h w wt)) := by
      rw [hM]
      exact Function.iterate_succ_apply' _ _ _
    have e' : flow_accumulation_d8 h w dir wt
        = (accStepD8 h w dir wt)^[M + 1] (materialize h w wt) := by
      rw [flow_accumulation_d8, hM]
    rw [flow_accumulation_d8, e, accStep_lookup dir wt _ hi hj]
    refine congrArg (fun t => wt i j + t) ?_
    rw [upstreamSumD8, upstreamSumD8]
    refine asum_map_congr _ _ _ ?_
    intro d _
    rcases hn : nbr h w i j ((d + 4) % 8) with - | u
    · rfl
    · simp only []
      by_cases hflow : d8next h w dir u = some (i, j)
      · rw [if_pos hflow, if_pos hflow]
        obtain ⟨hu1, hu2, hu3, -⟩ := d8next_some_elim hflow
        have hstab := accIter_stab dir wt M u.1 u.2 hu1 hu2 hu3 ?_
        · have e2 : accStepD8 h w dir wt
              ((accStepD8 h w dir wt)^[M] (materialize h w wt))
              = (accStepD8 h w dir wt)^[M + 1] (materialize h w wt) :=
            (Function.iterate_succ_apply' _ _ _).symm
          rw [e2]
          exact hstab.symm
        · intro v m hm
          have hb := acyclic_chainbound hac (c := (u.1, u.2)) (by exact hm)
          omega
      · rw [if_neg hflow, if_neg hflow]
  · intro h w dir wt i j hwt hi hj
    have hpos : 0 < h * w := Nat.mul_pos (by omega) (by omega)
    obtain ⟨M, hM⟩ : ∃ M, h * w = M + 1 := ⟨h * w - 1, by omega⟩
    have e : flow_accumulation_d8 h w dir wt
        = accStepD8 h w dir wt ((accStepD8 h w dir wt)^[M] (materialize h w wt)) := by
      rw [flow_accumulation_d8, hM]
      exact Function.iterate_succ_apply' _ _ _
    rw [e, accStep_lookup dir wt _ hi hj]
    refine le_add_of_nonneg_right ?_
    rw [upstreamSumD8]
    refine asum_nonneg ?_
    intro x hx
    rw [List.mem_map] at hx
    obtain ⟨d, -, hd⟩ := hx
    rcases hn : nbr h w i j ((d + 4) % 8) with - | u
    · rw [hn] at hd
      simp only at hd
      rw [← hd]
    · rw [hn] at hd
      simp only at hd
      rw [← hd]
      by_cases hflow : d8next h w dir u = some (i, j)
      · rw [if_pos hflow]
        exact accIter_nonneg dir wt hwt M u.1 u.2
      · rw [if_neg hflow]
  · apply iterate_eq_of_fix _ 8 _ _ _ (by norm_num)
    · decide
    · decide

/-- C1 counterexample: the claim quantifies over arbitrary weight grids
("arbitrary numeric grid" per the data model), but with a negative upstream
weight the accumulation of a downstream cell falls below that cell's own
weight: on the acyclic 1 x 2 direction grid [[E, E]] with weights
[[-5, 0]], cell (0, 1) accumulates -5 < 0, its own weight. -/
theorem claim_C1_counterexample :
    AcyclicD8 1 2 (fun i j => lookup [[0, 0]] 8 i j) ∧
    lookup (flow_accumulation_d8 1 2 (fun i j => lookup [[0, 0]] 8 i j)
        (fun i j => lookup [[(-5 : ℤ), 0]] 0 i j)) 0 0 1
      < lookup [[(-5 : ℤ), 0]] 0 0 1 := by
  constructor <;> decide

theorem claim_C1_witness :
    (AcyclicD8 1 2 (fun i j => lookup [[0, 0]] 8 i j) ∧ (0 : ℕ) < 1 ∧ (1 : ℕ) < 2 ∧
      lookup [[0, 0]] 8 0 1 < 8) ∧
    lookup (flow_accumulation_d8 1 2 (fun i j => lookup [[0, 0]] 8 i j)
        (fun _ _ => (1 : ℚ))) 0 0 1
      = 1 + upstreamSumD8 1 2 (fun i j => lookup [[0, 0]] 8 i j)
          (lookup (flow_accumulation_d8 1 2 (fun i j => lookup [[0, 0]] 8 i j)
            (fun _ _ => (1 : ℚ))) 0) 0 1 ∧
    (1 : ℚ) ≤ lookup (flow_accumulation_d8 1 2 (fun i j => lookup [[0, 0]] 8 i j)
        (fun _ _ => (1 : ℚ))) 0 0 1 :=
  ⟨⟨by decide, by norm_num, by norm_num, by decide⟩,
    claim_C1.1 1 2 (fun i j => lookup [[0, 0]] 8 i j) (fun _ _ => (1 : ℚ)) 0 1
      (by decide) (by norm_num) (by norm_num) (by decide),
    claim_C1.2.1 1 2 (fun i j => lookup [[0, 0]] 8 i j) (fun _ _ => (1 : ℚ)) 0 1
      (fun a b => by norm_num) (by norm_num) (by norm_num)⟩

theorem map_materialize {α β : Type} (f : α → β) (h w : ℕ) (g : ℕ → ℕ → α) :
    (materialize h w g).map (List.map f) = materialize h w fun i j => f (g i j) := by
  rw [materialize, materialize, List.map_map]
  refine List.map_congr_left fun i _ => ?_
  rw [Function.comp_apply, List.map_map]
  rfl

theorem getD_map_row {α β : Type} (f : α → β) (r : List α) (d : α) (j : ℕ) :
    (r.map f).getD j (f d) = f (r.getD j d) := by
  rw [List.getD_eq_getElem?_getD, List.getD_eq_getElem?_getD, List.getElem?_map]
  cases hx : r[j]? with
  | none => rfl
  | some x => rfl

theorem lookup_map {α β : Type} (f : α → β) (g : List (List α)) (d : α) (i j : ℕ) :
    lookup (g.map (List.map f)) (f d) i j = f (lookup g d i j) := by
  rw [lookup, lookup]
  have h1 : (g.map (List.map f)).getD i [] = (g.getD i []).map f := by
    rw [List.getD_eq_getElem?_getD, List.getD_eq_getElem?_getD, List.getElem?_map]
    cases g[i]? with
    | none => rfl
    | some r => rfl
  rw [h1, getD_map_row]

theorem asum_map_smul {ι : Type} (c : ℚ) (l : List ι) (f : ι → ℚ) :
    asum (l.map fun x => c * f x) = c * asum (l.map f) := by
  induction l with
  | nil => simp [asum]
  | cons a t ih =>
    rw [List.map_cons, List.map_cons, asum, asum, List.foldr_cons, List.foldr_cons]
    rw [show (t.map fun x => c * f x).foldr (fun a b => a + b) 0
        = asum (t.map fun x => c * f x) from rfl,
      show (t.map f).foldr (fun a b => a + b) 0 = asum (t.map f) from rfl, ih,
      mul_add]

theorem q2_ext {α : Type} {x y : Q2 α} (h1 : x.re = y.re) (h2 : x.rt = y.rt) :
    x = y := by
  cases x
  cases y
  simp only [] at h1 h2
  rw [Q2.mk.injEq]
  exact ⟨h1, h2⟩

theorem q2_add_re {α : Type} [Add α] (x y : Q2 α) : (x + y).re = x.re + y.re := rfl

theorem q2_add_rt {α : Type} [Add α] (x y : Q2 α) : (x + y).rt = x.rt + y.rt := rfl

theorem q2_zero_re {α : Type} [Zero α] : (0 : Q2 α).re = 0 := rfl

theorem q2_zero_rt {α : Type} [Zero α] : (0 : Q2 α).rt = 0 := rfl

theorem q2_scale_re {α : Type} [Mul α] (c : α) (x : Q2 α) :
    (Q2.scale c x).re = c * x.re := rfl

theorem q2_scale_rt {α : Type} [Mul α] (c : α) (x : Q2 α) :
    (Q2.scale c x).rt = c * x.rt := rfl

theorem q2_scale_add (c : ℚ) (x y : Q2 ℚ) :
    Q2.scale c (x + y) = Q2.scale c x + Q2.scale c y :=
  q2_ext (by rw [q2_scale_re, q2_add_re, q2_add_re, q2_scale_re, q2_scale_re, mul_add])
    (by rw [q2_scale_rt, q2_add_rt, q2_add_rt, q2_scale_rt, q2_scale_rt, mul_add])

theorem q2_scale_zero (c : ℚ) : Q2.scale c (0 : Q2 ℚ) = 0 :=
  q2_ext (by rw [q2_scale_re, q2_zero_re, mul_zero])
    (by rw [q2_scale_rt, q2_zero_rt, mul_zero])

theorem q2_scale_scale (a b : ℚ) (x : Q2 ℚ) :
    Q2.scale a (Q2.scale b x) = Q2.scale b (Q2.scale a x) :=
  q2_ext (by rw [q2_scale_re, q2_scale_re, q2_scale_re, q2_scale_re]; ring)
    (by rw [q2_scale_rt, q2_scale_rt, q2_scale_rt, q2_scale_rt]; ring)

theorem q2_asum_scale (c : ℚ) (l : List (Q2 ℚ)) :
    asum (l.map (Q2.scale c)) = Q2.scale c (asum l) := by
  induction l with
  | nil =>
    rw [List.map_nil]
    show (0 : Q2 ℚ) = Q2.scale c 0
    rw [q2_scale_zero]
  | cons a t ih =>
    rw [List.map_cons, asum, asum, List.foldr_cons, List.foldr_cons,
      show (t.map (Q2.scale c)).foldr (fun a b => a + b) 0
        = asum (t.map (Q2.scale c)) from rfl,
      show t.foldr (fun a b => a + b) 0 = asum t from rfl, ih, q2_scale_add]

theorem materialize_congr {α : Type} {h w : ℕ} {f g : ℕ → ℕ → α}
    (hfg : ∀ i j, i < h → j < w → f i j = g i j) :
    materialize h w f = materialize h w g := by
  rw [materialize, materialize]
  refine List.map_congr_left fun i hi => ?_
  rw [List.mem_range] at hi
  refine List.map_congr_left fun j hj => ?_
  rw [List.mem_range] at hj
  exact hfg i j hi hj

theorem upstreamSumD8_smul {h w : ℕ} (dir : ℕ → ℕ → ℕ) (c : ℚ)
    (f : ℕ → ℕ → ℚ) (i j : ℕ) :
    upstreamSumD8 h w dir (fun a b => c * f a b) i j
      = c * upstreamSumD8 h w dir f i j := by
  rw [upstreamSumD8, upstreamSumD8]
  rw [asum_map_congr (List.range 8)
    (fun k =>
      match nbr h w i j ((k + 4) % 8) with
      | some u => if d8next h w dir u = some (i, j) then c * f u.1 u.2 else 0
      | none => 0)
    (fun k => c *
      match nbr h w i j ((k + 4) % 8) with
      | some u => if d8next h w dir u = some (i, j) then f u.1 u.2 else 0
      | none => 0) ?_]
  · exact asum_map_smul c (List.range 8) _
  · intro d _
    rcases hn : nbr h w i j ((d + 4) % 8) with - | u
    · simp only [hn]
      rw [mul_zero]
    · simp only [hn]
      by_cases hflow : d8next h w dir u = some (i, j)
      · rw [if_pos hflow, if_pos hflow]
      · rw [if_neg hflow, if_neg hflow, mul_zero]

theorem flowAccD8_smul (h w : ℕ) (dir : ℕ → ℕ → ℕ) (c : ℚ) (wt : ℕ → ℕ → ℚ) :
    flow_accumulation_d8 h w dir (fun i j => c * wt i j)
      = (flow_accumulation_d8 h w dir wt).map (List.map fun x => c * x) := by
  rw [flow_accumulation_d8, flow_accumulation_d8]
  suffices H : ∀ n,
      (accStepD8 h w dir fun i j => c * wt i j)^[n]
          (materialize h w fun i j => c * wt i j)
        = ((accStepD8 h w dir wt)^[n] (materialize h w wt)).map
            (List.map fun x => c * x) from H (h * w)
  intro n
  induction n with
  | zero =>
    rw [Function.iterate_zero_apply, Function.iterate_zero_apply, map_materialize]
  | succ n ih =>
    rw [Function.iterate_succ_apply', Function.iterate_succ_apply', ih,
      accStepD8, accStepD8, map_materialize]
    refine materialize_congr fun i j _ _ => ?_
    have hl : ∀ a b,
        lookup (((accStepD8 h w dir wt)^[n] (materialize h w wt)).map
          (List.map fun x => c * x)) 0 a b
          = c * lookup ((accStepD8 h w dir wt)^[n] (materialize h w wt)) 0 a b := by
      intro a b
      rw [show (0 : ℚ) = c * 0 by rw [mul_zero]]
      rw [lookup_map (fun x => c * x) _ 0 a b, mul_zero]
    rw [show (upstreamSumD8 h w dir
        (lookup (((accStepD8 h w dir wt)^[n] (materialize h w wt)).map
          (List.map fun x => c * x)) 0) i j)
        = upstreamSumD8 h w dir
            (fun a b => c * lookup ((accStepD8 h w dir wt)^[n] (materialize h w wt))
              0 a b) i j from by
      rw [upstreamSumD8, upstreamSumD8]
      refine asum_map_congr _ _ _ fun d _ => ?_
      rcases hn : nbr h w i j ((d + 4) % 8) with - | u
      · simp only [hn]
      · simp only [hn]
        by_cases hflow : d8next h w dir u = some (i, j)
        · rw [if_pos hflow, if_pos hflow, hl]
        · rw [if_neg hflow, if_neg hflow]]
    rw [upstreamSumD8_smul, mul_add]

theorem mfdUpSum_congr {h w : ℕ} (g : ℕ → ℕ → ℕ) {f f' : ℕ → ℕ → ℚ}
    (hff : ∀ a b, f a b = f' a b) (i j : ℕ) :
    mfdUpSum h w g f i j = mfdUpSum h w g f' i j := by
  rw [mfdUpSum, mfdUpSum]
  refine asum_map_congr _ _ _ fun d _ => ?_
  rcases hn : nbr h w i j ((d + 4) % 8) with - | u
  · simp only [hn]
  · simp only [hn]
    by_cases hfl : mfdField g u.1 u.2 d ≠ 0
    · rw [if_pos hfl, if_pos hfl, hff]
    · rw [if_neg hfl, if_neg hfl]

theorem mfdUpSum_smul {h w : ℕ} (g : ℕ → ℕ → ℕ) (c : ℚ) (f : ℕ → ℕ → ℚ)
    (i j : ℕ) :
    mfdUpSum h w g (fun a b => c * f a b) i j = c * mfdUpSum h w g f i j := by
  rw [mfdUpSum, mfdUpSum]
  rw [asum_map_congr (List.range 8) _
    (fun d => c *
      match nbr h w i j ((d + 4) % 8) with
      | some u =>
          if mfdField g u.1 u.2 d ≠ 0 then
            ((mfdField g u.1 u.2 d : ℚ) / (mfdFieldSum g u.1 u.2 : ℚ)) * f u.1 u.2
          else 0
      | none => 0) ?_]
  · exact asum_map_smul c (List.range 8) _
  · intro d _
    rcases hn : nbr h w i j ((d + 4) % 8) with - | u
    · simp only [hn]
      rw [mul_zero]
    · simp only [hn]
      by_cases hfl : mfdField g u.1 u.2 d ≠ 0
      · rw [if_pos hfl, if_pos hfl]
        ring
      · rw [if_neg hfl, if_neg hfl, mul_zero]

theorem flowAccMFD_smul (h w : ℕ) (g : ℕ → ℕ → ℕ) (c : ℚ) (wt : ℕ → ℕ → ℚ)
    (i j : ℕ) :
    flow_accumulation_mfd h w g (fun a b => c * wt a b) i j
      = c * flow_accumulation_mfd h w g wt i j := by
  rw [flow_accumulation_mfd, flow_accumulation_mfd]
  suffices H : ∀ n a b,
      (accStepMFD h w g fun a b => c * wt a b)^[n] (fun a b => c * wt a b) a b
        = c * (accStepMFD h w g wt)^[n] wt a b from H (h * w) i j
  intro n
  induction n with
  | zero => intro a b; rfl
  | succ n ih =>
    intro a b
    rw [Function.iterate_succ_apply', Function.iterate_succ_apply',
      accStepMFD, accStepMFD]
    show (fun a b => c * wt a b) a b + _ = _
    simp only []
    rw [mfdUpSum_congr g ih a b, mfdUpSum_smul, mul_add]

theorem lookup_map_opt (g : List (List (Option (Q2 ℚ)))) (c : ℚ) (i j : ℕ) :
    lookup (g.map (List.map (Option.map (Q2.scale c)))) none i j
      = Option.map (Q2.scale c) (lookup g none i j) := by
  have h := lookup_map (Option.map (Q2.scale c)) g none i j
  rw [show Option.map (Q2.scale c) (none : Option (Q2 ℚ)) = none from rfl] at h
  exact h

theorem d8DistCore_smul (h w : ℕ) (dir chan : ℕ → ℕ → ℕ) (c : ℚ)
    (hop hop' : ℕ → ℕ → Q2 ℚ) (hh : ∀ i j, hop' i j = Q2.scale c (hop i j)) :
    d8DistCore h w dir chan hop'
      = (d8DistCore h w dir chan hop).map (List.map (Option.map (Q2.scale c))) := by
  rw [d8DistCore, d8DistCore]
  suffices H : ∀ n,
      (distStepD8 h w dir chan hop')^[n]
          (materialize h w fun i j => if chanB chan i j then some 0 else none)
        = ((distStepD8 h w dir chan hop)^[n]
            (materialize h w fun i j => if chanB chan i j then some 0 else none)).map
            (List.map (Option.map (Q2.scale c))) from H (h * w)
  intro n
  induction n with
  | zero =>
    rw [Function.iterate_zero_apply, Function.iterate_zero_apply, map_materialize]
    refine materialize_congr fun i j _ _ => ?_
    by_cases hc : chanB chan i j
    · rw [if_pos hc, Option.map_some', q2_scale_zero]
    · rw [if_neg hc, Option.map_none']
  | succ n ih =>
    rw [Function.iterate_succ_apply', Function.iterate_succ_apply', ih,
      distStepD8, distStepD8, map_materialize]
    refine materialize_congr fun i j _ _ => ?_
    by_cases hc : chanB chan i j
    · rw [if_pos hc, if_pos hc, Option.map_some', q2_scale_zero]
    · rw [if_neg hc, if_neg hc]
      rcases hnx : d8next h w dir (i, j) with - | nx
      · simp only [hnx, Option.map_none']
      · simp only [hnx]
        rw [lookup_map_opt]
        rcases hv : lookup ((distStepD8 h w dir chan hop)^[n]
            (materialize h w fun i j => if chanB chan i j then some 0 else none))
            none nx.1 nx.2 with - | v
        · rw [Option.map_none', Option.map_none', Option.map_none', Option.map_none']
        · rw [Option.map_some', Option.map_some', Option.map_some', Option.map_some',
            Option.some.injEq]
          rw [hh, q2_scale_add]

theorem isEmpty_map {α β : Type} (f : α → β) (l : List α) :
    (l.map f).isEmpty = l.isEmpty := by
  cases l <;> rfl

theorem mfdContribs_smul (h w : ℕ) (g : ℕ → ℕ → ℕ) (c : ℚ)
    (hop hop' : ℕ → ℕ → ℕ → Q2 ℚ) (hh : ∀ i j k, hop' i j k = Q2.scale c (hop i j k))
    (f f' : ℕ → ℕ → Option (Q2 ℚ))
    (hff : ∀ a b, f' a b = Option.map (Q2.scale c) (f a b)) (i j : ℕ) :
    mfdContribs h w g hop' f' i j
      = (mfdContribs h w g hop f i j).map fun p => (p.1, Q2.scale c p.2) := by
  rw [mfdContribs, mfdContribs, List.map_filterMap]
  refine List.filterMap_congr fun k _ => ?_
  rcases hn : nbr h w i j k with - | n
  · simp only [hn]
    rfl
  · simp only [hn]
    by_cases hfl : mfdField g i j k ≠ 0
    · rw [if_pos hfl, if_pos hfl, hff]
      rcases f n.1 n.2 with - | x
      · rfl
      · rw [Option.map_some', Option.map_some', Option.map_some', Option.map_some']
        rw [Option.some.injEq, Prod.mk.injEq]
        refine ⟨rfl, ?_⟩
        rw [hh, q2_scale_add]
    · rw [if_neg hfl, if_neg hfl]
      rfl

theorem mfdDistStep_smul (h w : ℕ) (g chan : ℕ → ℕ → ℕ) (c : ℚ)
    (hop hop' : ℕ → ℕ → ℕ → Q2 ℚ) (hh : ∀ i j k, hop' i j k = Q2.scale c (hop i j k))
    (f f' : ℕ → ℕ → Option (Q2 ℚ))
    (hff : ∀ a b, f' a b = Option.map (Q2.scale c) (f a b)) (i j : ℕ) :
    mfdDistStep h w g chan hop' f' i j
      = Option.map (Q2.scale c) (mfdDistStep h w g chan hop f i j) := by
  rw [mfdDistStep, mfdDistStep]
  by_cases hij : i < h ∧ j < w
  swap
  · rw [if_neg hij, if_neg hij]
    rfl
  rw [if_pos hij, if_pos hij]
  by_cases hc : chanB chan i j
  · rw [if_pos hc, if_pos hc, Option.map_some', q2_scale_zero]
  · rw [if_neg hc, if_neg hc, mfdContribs_smul h w g c hop hop' hh f f' hff i j]
    rw [isEmpty_map]
    by_cases hemp : (mfdContribs h w g hop f i j).isEmpty = true
    · rw [if_pos hemp, if_pos hemp]
      rfl
    · rw [if_neg hemp, if_neg hemp, Option.map_some', Option.some.injEq]
      rw [List.map_map, List.map_map]
      have htot : ((mfdContribs h w g hop f i j).map
            (Prod.fst ∘ fun p => (p.1, Q2.scale c p.2)))
          = (mfdContribs h w g hop f i j).map Prod.fst :=
        List.map_congr_left fun p _ => rfl
      have hval : ((mfdContribs h w g hop f i j).map
            ((fun p => Q2.scale p.1 p.2) ∘ fun p => (p.1, Q2.scale c p.2)))
          = ((mfdContribs h w g hop f i j).map fun p => Q2.scale p.1 p.2).map
              (Q2.scale c) := by
        rw [List.map_map]
        refine List.map_congr_left fun p _ => ?_
        rw [Function.comp_apply, Function.comp_apply]
        exact q2_scale_scale p.1 c p.2
      rw [htot, hval, q2_asum_scale, q2_scale_scale]

theorem distMFD_smul (h w : ℕ) (g chan : ℕ → ℕ → ℕ) (c : ℚ) (wt : ℕ → ℕ → ℚ)
    (i j : ℕ) :
    distance_to_channel_mfd h w g chan (some fun a b => c * wt a b) i j
      = Option.map (Q2.scale c)
          (distance_to_channel_mfd h w g chan (some wt) i j) := by
  rw [distance_to_channel_mfd, distance_to_channel_mfd]
  have hh : ∀ a b k, mfdHop (some fun a b => c * wt a b) a b k
      = Q2.scale c (mfdHop (some wt) a b k) := by
    intro a b k
    refine q2_ext ?_ ?_
    · rw [q2_scale_re]
      rfl
    · rw [q2_scale_rt]
      show (0 : ℚ) = c * 0
      rw [mul_zero]
  suffices H : ∀ n a b,
      (mfdDistStep h w g chan (mfdHop (some fun a b => c * wt a b)))^[n]
          (fun a b => if a < h ∧ b < w ∧ chanB chan a b then some 0 else none) a b
        = Option.map (Q2.scale c)
            ((mfdDistStep h w g chan (mfdHop (some wt)))^[n]
              (fun a b => if a < h ∧ b < w ∧ chanB chan a b then some 0 else none) a b)
    from H (h * w) i j
  intro n
  induction n with
  | zero =>
    intro a b
    rw [Function.iterate_zero_apply, Function.iterate_zero_apply]
    split
    · rw [Option.map_some', q2_scale_zero]
    · rfl
  | succ n ih =>
    intro a b
    rw [Function.iterate_succ_apply', Function.iterate_succ_apply']
    exact mfdDistStep_smul h w g chan c _ _ hh _ _ ih a b

/-- C6: for each of `flow_accumulation_d8`, `flow_accumulation_mfd`,
`distance_to_channel_d8` and `distance_to_channel_mfd`, scaling a spatially
uniform weight grid by a constant factor `c` scales every output cell value by
exactly `c`: the scaled-weight run equals the unscaled run with every cell
multiplied by `c` (distances carry their exact `a + b. √2` values, scaled
componentwise by `Q2.scale c`). -/
theorem claim_C6 (h w : ℕ) (dir g chan : ℕ → ℕ → ℕ) (c k : ℚ) :
    (flow_accumulation_d8 h w dir (fun _ _ => c * k)
        = (flow_accumulation_d8 h w dir fun _ _ => k).map (List.map fun x => c * x))
    ∧ (∀ i j, flow_accumulation_mfd h w g (fun _ _ => c * k) i j
        = c * flow_accumulation_mfd h w g (fun _ _ => k) i j)
    ∧ (distance_to_channel_d8 h w dir chan (some fun _ _ => c * k)
        = (distance_to_channel_d8 h w dir chan (some fun _ _ => k)).map
            (List.map (Option.map (Q2.scale c))))
    ∧ (∀ i j, distance_to_channel_mfd h w g chan (some fun _ _ => c * k) i j
        = Option.map (Q2.scale c)
            (distance_to_channel_mfd h w g chan (some fun _ _ => k) i j)) := by
  refine ⟨flowAccD8_smul h w dir c (fun _ _ => k), ?_, ?_, ?_⟩
  · intro i j
    exact flowAccMFD_smul h w g c (fun _ _ => k) i j
  · show d8DistCore h w dir chan (fun _ _ => (⟨c * k, 0⟩ : Q2 ℚ))
        = (d8DistCore h w dir chan fun _ _ => (⟨k, 0⟩ : Q2 ℚ)).map
            (List.map (Option.map (Q2.scale c)))
    refine d8DistCore_smul h w dir chan c _ _ fun i j => ?_
    refine q2_ext ?_ ?_
    · rw [q2_scale_re]
    · rw [q2_scale_rt]
      show (0 : ℚ) = c * 0
      rw [mul_zero]
  · intro i j
    exact distMFD_smul h w g chan c (fun _ _ => k) i j

theorem asum_cons {α : Type} [Add α] [Zero α] (a : α) (t : List α) :
    asum (a :: t) = a + asum t := rfl

theorem asum_nil {α : Type} [Add α] [Zero α] : asum ([] : List α) = 0 := rfl

theorem le_asum_of_mem_nat {l : List ℕ} {a : ℕ} (ha : a ∈ l) : a ≤ asum l := by
  induction l with
  | nil => exact absurd ha (List.not_mem_nil a)
  | cons b t ih =>
    rw [asum_cons]
    rcases List.mem_cons.mp ha with rfl | ht
    · exact Nat.le_add_right _ _
    · have := ih ht
      omega

theorem le_asum_of_mem {l : List ℚ} (hl : ∀ x ∈ l, 0 ≤ x) {a : ℚ} (ha : a ∈ l) :
    a ≤ asum l := by
  induction l with
  | nil => exact absurd ha (List.not_mem_nil a)
  | cons b t ih =>
    rw [asum_cons]
    rcases List.mem_cons.mp ha with rfl | ht
    · exact le_add_of_nonneg_right
        (asum_nonneg fun x hx => hl x (List.mem_cons_of_mem _ hx))
    · exact (ih (fun x hx => hl x (List.mem_cons_of_mem _ hx)) ht).trans
        (le_add_of_nonneg_left (hl b (List.mem_cons_self _ _)))

theorem asum_le_mul {l : List ℚ} {b : ℚ} (h : ∀ x ∈ l, x ≤ b) :
    asum l ≤ (l.length : ℚ) * b := by
  induction l with
  | nil =>
    rw [asum_nil, List.length_nil]
    norm_num
  | cons a t ih =>
    rw [asum_cons, List.length_cons]
    have h1 : asum t ≤ (t.length : ℚ) * b :=
      ih fun x hx => h x (List.mem_cons_of_mem _ hx)
    have h2 : a ≤ b := h a (List.mem_cons_self _ _)
    push_cast
    linarith

theorem asum_lt_mul {l : List ℚ} {b : ℚ} (hne : l ≠ []) (h : ∀ x ∈ l, x < b) :
    asum l < (l.length : ℚ) * b := by
  cases l with
  | nil => exact absurd rfl hne
  | cons a t =>
    rw [asum_cons, List.length_cons]
    have h1 : asum t ≤ (t.length : ℚ) * b :=
      asum_le_mul fun x hx => (h x (List.mem_cons_of_mem _ hx)).le
    have h2 : a < b := h a (List.mem_cons_self _ _)
    push_cast
    linarith

theorem asum_div (l : List ℚ) (c : ℚ) :
    asum (l.map fun x => x / c) = asum l / c := by
  induction l with
  | nil =>
    rw [List.map_nil, asum_nil, zero_div]
  | cons a t ih =>
    rw [List.map_cons, asum_cons, asum_cons, ih, add_div]

theorem asum_natCast (l : List ℕ) :
    ((asum l : ℕ) : ℚ) = asum (l.map (Nat.cast : ℕ → ℚ)) := by
  induction l with
  | nil => exact Nat.cast_zero
  | cons a t ih =>
    rw [List.map_cons, asum_cons, asum_cons, Nat.cast_add, ih]

theorem downW_nonneg (h w : ℕ) (e : ℕ → ℕ → ℚ) (cs : ℕ → ℚ)
    (hcs : ∀ k, 0 ≤ cs k) (i j k : ℕ) : 0 ≤ downW h w e cs i j k := by
  rcases hn : nbr h w i j k with - | n
  · simp only [downW, hn]
    exact le_refl 0
  · simp only [downW, hn]
    by_cases hlt : e n.1 n.2 < e i j
    · rw [if_pos hlt]
      exact mul_nonneg (sub_nonneg.mpr hlt.le) (hcs k)
    · rw [if_neg hlt]

theorem downWSum_nonneg (h w : ℕ) (e : ℕ → ℕ → ℚ) (cs : ℕ → ℚ)
    (hcs : ∀ k, 0 ≤ cs k) (i j : ℕ) : 0 ≤ downWSum h w e cs i j := by
  rw [downWSum]
  refine asum_nonneg fun x hx => ?_
  obtain ⟨k, _, rfl⟩ := List.mem_map.mp hx
  exact downW_nonneg h w e cs hcs i j k

theorem downW_le_downWSum (h w : ℕ) (e : ℕ → ℕ → ℚ) (cs : ℕ → ℚ)
    (hcs : ∀ k, 0 ≤ cs k) (i j : ℕ) {k : ℕ} (hk : k < 8) :
    downW h w e cs i j k ≤ downWSum h w e cs i j := by
  rw [downWSum]
  refine le_asum_of_mem (fun x hx => ?_) ?_
  · obtain ⟨m, _, rfl⟩ := List.mem_map.mp hx
    exact downW_nonneg h w e cs hcs i j m
  · exact List.mem_map_of_mem _ (List.mem_range.mpr hk)

theorem mfdShare_nonneg (h w : ℕ) (e : ℕ → ℕ → ℚ) (cs : ℕ → ℚ)
    (hcs : ∀ k, 0 ≤ cs k) (i j k : ℕ) : 0 ≤ mfdShare h w e cs i j k :=
  div_nonneg (downW_nonneg h w e cs hcs i j k) (downWSum_nonneg h w e cs hcs i j)

theorem mfdShare_le_one (h w : ℕ) (e : ℕ → ℕ → ℚ) (cs : ℕ → ℚ)
    (hcs : ∀ k, 0 ≤ cs k) (i j : ℕ) {k : ℕ} (hk : k < 8) :
    mfdShare h w e cs i j k ≤ 1 := by
  rw [mfdShare]
  rcases eq_or_lt_of_le (downWSum_nonneg h w e cs hcs i j) with hS | hS
  · rw [← hS, div_zero]
    exact zero_le_one
  · exact (div_le_one hS).mpr (downW_le_downWSum h w e cs hcs i j hk)

theorem mfdQuant_le_15 (h w : ℕ) (e : ℕ → ℕ → ℚ) (cs : ℕ → ℚ)
    (hcs : ∀ k, 0 ≤ cs k) (i j : ℕ) {k : ℕ} (hk : k < 8) :
    mfdQuant h w e cs i j k ≤ 15 := by
  have h0 : 0 ≤ mfdShare h w e cs i j k := mfdShare_nonneg h w e cs hcs i j k
  have h1 : mfdShare h w e cs i j k ≤ 1 := mfdShare_le_one h w e cs hcs i j hk
  have hf : ⌊15 * mfdShare h w e cs i j k + 1 / 2⌋ < (16 : ℤ) := by
    refine Int.floor_lt.mpr ?_
    push_cast
    linarith
  rw [mfdQuant]
  omega

theorem mfdQuant_eq_zero_of_downW (h w : ℕ) (e : ℕ → ℕ → ℚ) (cs : ℕ → ℚ)
    (i j k : ℕ) (hd : downW h w e cs i j k = 0) : mfdQuant h w e cs i j k = 0 := by
  rw [mfdQuant, mfdShare, hd, zero_div, mul_zero, zero_add]
  have hf : ⌊(1 / 2 : ℚ)⌋ = 0 := by
    rw [Int.floor_eq_zero_iff, Set.mem_Ico]
    constructor <;> norm_num
  rw [hf]
  rfl

theorem downW_eq_zero (h w : ℕ) (e : ℕ → ℕ → ℚ) (cs : ℕ → ℚ) (i j k : ℕ)
    (hs : ∀ n, nbr h w i j k = some n → ¬ e n.1 n.2 < e i j) :
    downW h w e cs i j k = 0 := by
  rcases hn : nbr h w i j k with - | n
  · simp only [downW, hn]
  · simp only [downW, hn, if_neg (hs n hn)]

theorem downW_ne_zero_elim (h w : ℕ) (e : ℕ → ℕ → ℚ) (cs : ℕ → ℚ) (i j k : ℕ)
    (hd : downW h w e cs i j k ≠ 0) :
    ∃ n, nbr h w i j k = some n ∧ e n.1 n.2 < e i j := by
  rcases hn : nbr h w i j k with - | n
  · exact absurd (downW_eq_zero h w e cs i j k fun n hn2 => by rw [hn] at hn2; cases hn2) hd
  · by_cases hlt : e n.1 n.2 < e i j
    · exact ⟨n, rfl, hlt⟩
    · refine absurd ?_ hd
      simp only [downW, hn, if_neg hlt]

theorem mfdQuant_ne_zero_of_share (h w : ℕ) (e : ℕ → ℕ → ℚ) (cs : ℕ → ℚ)
    (i j k : ℕ) (hs : 1 / 8 ≤ mfdShare h w e cs i j k) :
    mfdQuant h w e cs i j k ≠ 0 := by
  have hf : (1 : ℤ) ≤ ⌊15 * mfdShare h w e cs i j k + 1 / 2⌋ := by
    refine Int.le_floor.mpr ?_
    push_cast
    linarith
  rw [mfdQuant]
  omega

theorem exists_share_ge (h w : ℕ) (e : ℕ → ℕ → ℚ) (cs : ℕ → ℚ)
    (hcs : ∀ k, 0 ≤ cs k) (i j : ℕ) (hS : 0 < downWSum h w e cs i j) :
    ∃ k, k < 8 ∧ 1 / 8 ≤ mfdShare h w e cs i j k := by
  by_contra hc
  push_neg at hc
  have hsum : asum ((List.range 8).map fun k => mfdShare h w e cs i j k) = 1 := by
    have hmm : ((List.range 8).map fun k => mfdShare h w e cs i j k)
        = (((List.range 8).map fun k => downW h w e cs i j k).map
            fun x => x / downWSum h w e cs i j) := by
      rw [List.map_map]
      rfl
    rw [hmm, asum_div]
    rw [show asum ((List.range 8).map fun k => downW h w e cs i j k)
        = downWSum h w e cs i j from rfl]
    exact div_self hS.ne'
  have hlt : asum ((List.range 8).map fun k => mfdShare h w e cs i j k)
      < (((List.range 8).map fun k => mfdShare h w e cs i j k).length : ℚ)
          * (1 / 8 : ℚ) := by
    refine asum_lt_mul (by simp) fun x hx => ?_
    obtain ⟨k, hk, rfl⟩ := List.mem_map.mp hx
    exact hc k (List.mem_range.mp hk)
  rw [hsum, List.length_map, List.length_range] at hlt
  norm_num at hlt

theorem mfdField_le_15 (g : ℕ → ℕ → ℕ) (i j k : ℕ) : mfdField g i j k ≤ 15 := by
  rw [mfdField]
  have := Nat.mod_lt (g i j / 16 ^ k) (show 0 < 16 by norm_num)
  omega

theorem flow_dir_mfd_expand (h w : ℕ) (e : ℕ → ℕ → ℚ) (cs : ℕ → ℚ) (i j : ℕ) :
    flow_dir_mfd h w e cs i j
      = mfdQuant h w e cs i j 0 + mfdQuant h w e cs i j 1 * 16
        + mfdQuant h w e cs i j 2 * 256 + mfdQuant h w e cs i j 3 * 4096
        + mfdQuant h w e cs i j 4 * 65536 + mfdQuant h w e cs i j 5 * 1048576
        + mfdQuant h w e cs i j 6 * 16777216
        + mfdQuant h w e cs i j 7 * 268435456 := by
  rw [flow_dir_mfd]
  have hr : List.range 8 = [0, 1, 2, 3, 4, 5, 6, 7] := rfl
  rw [hr]
  simp only [List.map_cons, List.map_nil, asum_cons, asum_nil]
  norm_num
  omega

theorem mfdField_flow_dir (h w : ℕ) (e : ℕ → ℕ → ℚ) (cs : ℕ → ℚ)
    (hcs : ∀ k, 0 ≤ cs k) (i j : ℕ) {m : ℕ} (hm : m < 8) :
    mfdField (flow_dir_mfd h w e cs) i j m = mfdQuant h w e cs i j m := by
  have h0 := mfdQuant_le_15 h w e cs hcs i j (show 0 < 8 by omega)
  have h1 := mfdQuant_le_15 h w e cs hcs i j (show 1 < 8 by omega)
  have h2 := mfdQuant_le_15 h w e cs hcs i j (show 2 < 8 by omega)
  have h3 := mfdQuant_le_15 h w e cs hcs i j (show 3 < 8 by omega)
  have h4 := mfdQuant_le_15 h w e cs hcs i j (show 4 < 8 by omega)
  have h5 := mfdQuant_le_15 h w e cs hcs i j (show 5 < 8 by omega)
  have h6 := mfdQuant_le_15 h w e cs hcs i j (show 6 < 8 by omega)
  have h7 := mfdQuant_le_15 h w e cs hcs i j (show 7 < 8 by omega)
  rw [mfdField, flow_dir_mfd_expand h w e cs i j]
  interval_cases m <;> · norm_num; omega

theorem flow_dir_mfd_lt (h w : ℕ) (e : ℕ → ℕ → ℚ) (cs : ℕ → ℚ)
    (hcs : ∀ k, 0 ≤ cs k) (i j : ℕ) : flow_dir_mfd h w e cs i j < 2 ^ 32 := by
  have h0 := mfdQuant_le_15 h w e cs hcs i j (show 0 < 8 by omega)
  have h1 := mfdQuant_le_15 h w e cs hcs i j (show 1 < 8 by omega)
  have h2 := mfdQuant_le_15 h w e cs hcs i j (show 2 < 8 by omega)
  have h3 := mfdQuant_le_15 h w e cs hcs i j (show 3 < 8 by omega)
  have h4 := mfdQuant_le_15 h w e cs hcs i j (show 4 < 8 by omega)
  have h5 := mfdQuant_le_15 h w e cs hcs i j (show 5 < 8 by omega)
  have h6 := mfdQuant_le_15 h w e cs hcs i j (show 6 < 8 by omega)
  have h7 := mfdQuant_le_15 h w e cs hcs i j (show 7 < 8 by omega)
  rw [flow_dir_mfd_expand h w e cs i j]
  have : (2 : ℕ) ^ 32 = 4294967296 := by norm_num
  omega

/-- C5: every cell value of `flow_dir_mfd` fits in 32 bits and packs eight
4-bit fields, each in `[0, 15]`, with field `k` the quantised share
`mfdQuant`; a nonzero field points at a strictly downslope neighbour; a cell
with no downslope neighbour packs all fields zero; and at any cell with a
downslope neighbour the field sum is positive and the fields divided by their
sum form a probability distribution (each proportion in `[0, 1]`, proportions
summing to exactly 1). -/
theorem claim_C5 (h w : ℕ) (e : ℕ → ℕ → ℚ) (cs : ℕ → ℚ)
    (hcs : ∀ k, 0 < cs k) (i j : ℕ) :
    flow_dir_mfd h w e cs i j < 2 ^ 32
    ∧ (∀ k, mfdField (flow_dir_mfd h w e cs) i j k ≤ 15)
    ∧ (∀ k, k < 8 →
        mfdField (flow_dir_mfd h w e cs) i j k = mfdQuant h w e cs i j k)
    ∧ (∀ k, mfdQuant h w e cs i j k ≠ 0 →
        ∃ n, nbr h w i j k = some n ∧ e n.1 n.2 < e i j)
    ∧ ((∀ k n, nbr h w i j k = some n → ¬ e n.1 n.2 < e i j) →
        flow_dir_mfd h w e cs i j = 0)
    ∧ ((∃ k, k < 8 ∧ ∃ n, nbr h w i j k = some n ∧ e n.1 n.2 < e i j) →
        0 < mfdFieldSum (flow_dir_mfd h w e cs) i j
        ∧ (∀ k, k < 8 →
            0 ≤ (mfdField (flow_dir_mfd h w e cs) i j k : ℚ)
                / (mfdFieldSum (flow_dir_mfd h w e cs) i j : ℚ)
            ∧ (mfdField (flow_dir_mfd h w e cs) i j k : ℚ)
                / (mfdFieldSum (flow_dir_mfd h w e cs) i j : ℚ) ≤ 1)
        ∧ asum ((List.range 8).map fun k =>
            (mfdField (flow_dir_mfd h w e cs) i j k : ℚ)
              / (mfdFieldSum (flow_dir_mfd h w e cs) i j : ℚ)) = 1) := by
  have hcs0 : ∀ k, 0 ≤ cs k := fun k => (hcs k).le
  refine ⟨flow_dir_mfd_lt h w e cs hcs0 i j, fun k => mfdField_le_15 _ i j k,
    fun k hk => mfdField_flow_dir h w e cs hcs0 i j hk, ?_, ?_, ?_⟩
  · intro k hqk
    refine downW_ne_zero_elim h w e cs i j k fun h0 => ?_
    exact hqk (mfdQuant_eq_zero_of_downW h w e cs i j k h0)
  · intro hs
    rw [flow_dir_mfd]
    refine asum_eq_zero fun x hx => ?_
    obtain ⟨k, _, rfl⟩ := List.mem_map.mp hx
    rw [mfdQuant_eq_zero_of_downW h w e cs i j k (downW_eq_zero h w e cs i j k
      fun n hn => hs k n hn), zero_mul]
  · rintro ⟨k0, hk0, n, hn, hdown⟩
    have hdw : 0 < downW h w e cs i j k0 := by
      simp only [downW, hn, if_pos hdown]
      exact mul_pos (sub_pos.mpr hdown) (hcs k0)
    have hS : 0 < downWSum h w e cs i j :=
      lt_of_lt_of_le hdw (downW_le_downWSum h w e cs hcs0 i j hk0)
    obtain ⟨k1, hk1, hs1⟩ := exists_share_ge h w e cs hcs0 i j hS
    have hq1 : mfdQuant h w e cs i j k1 ≠ 0 :=
      mfdQuant_ne_zero_of_share h w e cs i j k1 hs1
    have hQ : mfdFieldSum (flow_dir_mfd h w e cs) i j
        = asum ((List.range 8).map fun k => mfdQuant h w e cs i j k) := by
      rw [mfdFieldSum]
      exact asum_map_congr _ _ _ fun k hk =>
        mfdField_flow_dir h w e cs hcs0 i j (List.mem_range.mp hk)
    have hQpos : 0 < mfdFieldSum (flow_dir_mfd h w e cs) i j := by
      rw [hQ]
      exact lt_of_lt_of_le (Nat.pos_of_ne_zero hq1)
        (le_asum_of_mem_nat (List.mem_map_of_mem _ (List.mem_range.mpr hk1)))
    have hQne : ((mfdFieldSum (flow_dir_mfd h w e cs) i j : ℕ) : ℚ) ≠ 0 :=
      Nat.cast_ne_zero.mpr hQpos.ne'
    refine ⟨hQpos, fun k hk => ⟨?_, ?_⟩, ?_⟩
    · exact div_nonneg (Nat.cast_nonneg _) (Nat.cast_nonneg _)
    · refine (div_le_one (Nat.cast_pos.mpr hQpos)).mpr (Nat.cast_le.mpr ?_)
      rw [hQ, mfdField_flow_dir h w e cs hcs0 i j hk]
      exact le_asum_of_mem_nat (List.mem_map_of_mem _ (List.mem_range.mpr hk))
    · have hmm : ((List.range 8).map fun k =>
          (mfdField (flow_dir_mfd h w e cs) i j k : ℚ)
            / (mfdFieldSum (flow_dir_mfd h w e cs) i j : ℚ))
          = (((List.range 8).map fun k =>
              ((mfdField (flow_dir_mfd h w e cs) i j k : ℕ) : ℚ)).map
              fun x => x / (mfdFieldSum (flow_dir_mfd h w e cs) i j : ℚ)) := by
        rw [List.map_map]
        rfl
      rw [hmm, asum_div]
      have hcast : ((List.range 8).map fun k =>
            ((mfdField (flow_dir_mfd h w e cs) i j k : ℕ) : ℚ))
          = (((List.range 8).map fun k =>
              mfdField (flow_dir_mfd h w e cs) i j k).map (Nat.cast : ℕ → ℚ)) := by
        rw [List.map_map]
        rfl
      rw [hcast, ← asum_natCast]
      rw [show asum ((List.range 8).map fun k =>
          mfdField (flow_dir_mfd h w e cs) i j k)
          = mfdFieldSum (flow_dir_mfd h w e cs) i j from rfl]
      exact div_self hQne

theorem claim_C5_witness :
    (∀ k : ℕ, (0 : ℚ) < (fun _ : ℕ => (1 : ℚ)) k)
    ∧ (flow_dir_mfd 1 2 (fun _ b => if b = 0 then (1 : ℚ) else 0)
          (fun _ : ℕ => (1 : ℚ)) 0 0 < 2 ^ 32
      ∧ (∀ k, mfdField (flow_dir_mfd 1 2 (fun _ b => if b = 0 then (1 : ℚ) else 0)
          (fun _ : ℕ => (1 : ℚ))) 0 0 k ≤ 15)
      ∧ (∀ k, k < 8 →
          mfdField (flow_dir_mfd 1 2 (fun _ b => if b = 0 then (1 : ℚ) else 0)
              (fun _ : ℕ => (1 : ℚ))) 0 0 k
            = mfdQuant 1 2 (fun _ b => if b = 0 then (1 : ℚ) else 0)
                (fun _ : ℕ => (1 : ℚ)) 0 0 k)
      ∧ (∀ k, mfdQuant 1 2 (fun _ b => if b = 0 then (1 : ℚ) else 0)
            (fun _ : ℕ => (1 : ℚ)) 0 0 k ≠ 0 →
          ∃ n, nbr 1 2 0 0 k = some n
            ∧ (fun _ b => if b = 0 then (1 : ℚ) else 0) n.1 n.2
                < (fun _ b => if b = 0 then (1 : ℚ) else 0) 0 0)
      ∧ ((∀ k n, nbr 1 2 0 0 k = some n →
            ¬ (fun _ b => if b = 0 then (1 : ℚ) else 0) n.1 n.2
                < (fun _ b => if b = 0 then (1 : ℚ) else 0) 0 0) →
          flow_dir_mfd 1 2 (fun _ b => if b = 0 then (1 : ℚ) else 0)
            (fun _ : ℕ => (1 : ℚ)) 0 0 = 0)
      ∧ ((∃ k, k < 8 ∧ ∃ n, nbr 1 2 0 0 k = some n
            ∧ (fun _ b => if b = 0 then (1 : ℚ) else 0) n.1 n.2
                < (fun _ b => if b = 0 then (1 : ℚ) else 0) 0 0) →
          0 < mfdFieldSum (flow_dir_mfd 1 2 (fun _ b => if b = 0 then (1 : ℚ) else 0)
              (fun _ : ℕ => (1 : ℚ))) 0 0
          ∧ (∀ k, k < 8 →
              0 ≤ (mfdField (flow_dir_mfd 1 2 (fun _ b => if b = 0 then (1 : ℚ) else 0)
                    (fun _ : ℕ => (1 : ℚ))) 0 0 k : ℚ)
                  / (mfdFieldSum (flow_dir_mfd 1 2
                      (fun _ b => if b = 0 then (1 : ℚ) else 0)
                      (fun _ : ℕ => (1 : ℚ))) 0 0 : ℚ)
              ∧ (mfdField (flow_dir_mfd 1 2 (fun _ b => if b = 0 then (1 : ℚ) else 0)
                    (fun _ : ℕ => (1 : ℚ))) 0 0 k : ℚ)
                  / (mfdFieldSum (flow_dir_mfd 1 2
                      (fun _ b => if b = 0 then (1 : ℚ) else 0)
                      (fun _ : ℕ => (1 : ℚ))) 0 0 : ℚ) ≤ 1)
          ∧ asum ((List.range 8).map fun k =>
              (mfdField (flow_dir_mfd 1 2 (fun _ b => if b = 0 then (1 : ℚ) else 0)
                    (fun _ : ℕ => (1 : ℚ))) 0 0 k : ℚ)
                / (mfdFieldSum (flow_dir_mfd 1 2
                    (fun _ b => if b = 0 then (1 : ℚ) else 0)
                    (fun _ : ℕ => (1 : ℚ))) 0 0 : ℚ)) = 1)) :=
  ⟨fun _ => one_pos,
    claim_C5 1 2 (fun _ b => if b = 0 then (1 : ℚ) else 0) (fun _ : ℕ => (1 : ℚ))
      (fun _ => one_pos) 0 0⟩

theorem seq_stall {γ : Type} [DecidableEq γ] (S : ℕ → Finset γ) (B : Finset γ)
    (hchain : ∀ n, S n ⊆ S (n + 1))
    (hstep : ∀ a b, S a = S b → S (a + 1) = S (b + 1))
    (hB : ∀ n, S n ⊆ B) (N : ℕ) (hcard : B.card ≤ N) (m : ℕ) :
    S m ⊆ S N := by
  have hmono : ∀ a d, S a ⊆ S (a + d) := by
    intro a d
    induction d with
    | zero => exact Finset.Subset.refl _
    | succ d ih => exact ih.trans (hchain (a + d))
  by_cases hex : ∃ n, n < N ∧ S n = S (n + 1)
  · obtain ⟨n, hnN, hfix⟩ := hex
    have hconst : ∀ d, S (n + d) = S n := by
      intro d
      induction d with
      | zero => rfl
      | succ d ih => exact (hstep _ _ ih).trans hfix.symm
    rcases le_or_lt m N with hmN | hNm
    · obtain ⟨d, rfl⟩ := Nat.exists_eq_add_of_le hmN
      exact hmono m d
    · have h1 : S m = S n := by
        obtain ⟨d, rfl⟩ := Nat.exists_eq_add_of_le (le_of_lt (lt_trans hnN hNm))
        exact hconst d
      have h2 : S N = S n := by
        obtain ⟨d, rfl⟩ := Nat.exists_eq_add_of_le (le_of_lt hnN)
        exact hconst d
      rw [h1, h2]
  · push_neg at hex
    have hgrow : ∀ n, n ≤ N → n ≤ (S n).card := by
      intro n hn
      induction n with
      | zero => exact Nat.zero_le _
      | succ n ih =>
        have hlt : (S n).card < (S (n + 1)).card :=
          Finset.card_lt_card (Finset.ssubset_iff_subset_ne.mpr
            ⟨hchain n, hex n (Nat.lt_of_succ_le hn)⟩)
        exact Nat.succ_le_of_lt
          (Nat.lt_of_le_of_lt (ih (Nat.le_of_succ_le hn)) hlt)
    have hSN : S N = B :=
      Finset.eq_of_subset_of_card_le (hB N) (le_trans hcard (hgrow N (le_refl N)))
    exact (hB m).trans (le_of_eq hSN.symm)

theorem iterD8_succ_front {h w : ℕ} (dir : ℕ → ℕ → ℕ) (m : ℕ) (c : ℕ × ℕ) :
    iterD8 h w dir (m + 1) c
      = match d8next h w dir c with
        | some u => iterD8 h w dir m u
        | none => none := by
  rw [iterD8, Function.iterate_succ_apply]
  have hb : (some c).bind (d8next h w dir) = d8next h w dir c := rfl
  rw [hb]
  rcases hu : d8next h w dir c with - | u
  · exact iterD8_none_step dir m
  · rfl

theorem nbr_some_valid {h w i j k : ℕ} {n : ℕ × ℕ} (hn : nbr h w i j k = some n) :
    n.1 < h ∧ n.2 < w := by
  rw [nbr] at hn
  by_cases hb : 0 ≤ (i : ℤ) + (dirOffset k).1 ∧ (i : ℤ) + (dirOffset k).1 < (h : ℤ)
      ∧ 0 ≤ (j : ℤ) + (dirOffset k).2 ∧ (j : ℤ) + (dirOffset k).2 < (w : ℤ)
  · rw [if_pos hb] at hn
    obtain ⟨h1, h2, h3, h4⟩ := hb
    injection hn with hn2
    subst hn2
    constructor <;> · simp only []; omega
  · rw [if_neg hb] at hn
    cases hn

theorem toReal_zero : Q2.toReal (0 : Q2 ℚ) = 0 := by
  rw [Q2.toReal, q2_zero_re, q2_zero_rt]
  push_cast
  ring

theorem toReal_add (a b : Q2 ℚ) :
    Q2.toReal (a + b) = Q2.toReal a + Q2.toReal b := by
  rw [Q2.toReal, Q2.toReal, Q2.toReal, q2_add_re, q2_add_rt]
  push_cast
  ring

theorem toReal_scale (c : ℚ) (x : Q2 ℚ) :
    Q2.toReal (Q2.scale c x) = (c : ℝ) * Q2.toReal x := by
  rw [Q2.toReal, Q2.toReal, q2_scale_re, q2_scale_rt]
  push_cast
  ring

theorem one_le_sqrt_two : (1 : ℝ) ≤ Real.sqrt 2 := by
  rw [show (1 : ℝ) = Real.sqrt 1 from (Real.sqrt_one).symm]
  exact Real.sqrt_le_sqrt (by norm_num)

theorem one_le_toReal_geoCost (k : ℕ) : 1 ≤ Q2.toReal (geoCost k) := by
  rw [geoCost]
  by_cases hk : k % 2 = 0
  · rw [if_pos hk, Q2.toReal]
    norm_num
  · rw [if_neg hk, Q2.toReal]
    push_cast
    rw [zero_add, one_mul]
    exact one_le_sqrt_two

theorem toReal_asum (l : List (Q2 ℚ)) :
    Q2.toReal (asum l) = asum (l.map Q2.toReal) := by
  induction l with
  | nil =>
    rw [List.map_nil, asum_nil, asum_nil]
    exact toReal_zero
  | cons a t ih =>
    rw [List.map_cons, asum_cons, asum_cons, toReal_add, ih]

theorem asum_le_asum {α : Type} (l : List α) (f g : α → ℝ)
    (hfg : ∀ x ∈ l, f x ≤ g x) : asum (l.map f) ≤ asum (l.map g) := by
  induction l with
  | nil => exact le_refl _
  | cons a t ih =>
    rw [List.map_cons, List.map_cons, asum_cons, asum_cons]
    exact add_le_add (hfg a (List.mem_cons_self _ _))
      (ih fun x hx => hfg x (List.mem_cons_of_mem _ hx))

theorem asum_ratCast (l : List ℚ) :
    ((asum l : ℚ) : ℝ) = asum (l.map (Rat.cast : ℚ → ℝ)) := by
  induction l with
  | nil => exact Rat.cast_zero
  | cons a t ih =>
    rw [List.map_cons, asum_cons, asum_cons, Rat.cast_add, ih]

theorem asum_pos_of_forall {l : List ℚ} (hne : l ≠ [])
    (hl : ∀ x ∈ l, 0 < x) : 0 < asum l := by
  cases l with
  | nil => exact absurd rfl hne
  | cons a t =>
    rw [asum_cons]
    exact add_pos_of_pos_of_nonneg (hl a (List.mem_cons_self _ _))
      (asum_nonneg fun x hx => (hl x (List.mem_cons_of_mem _ hx)).le)

theorem distStepD8_lookup {β : Type} [Add β] [Zero β] {h w : ℕ}
    (dir chan : ℕ → ℕ → ℕ) (hop : ℕ → ℕ → β)
    (prev : List (List (Option β))) {i j : ℕ} (hi : i < h) (hj : j < w) :
    lookup (distStepD8 h w dir chan hop prev) none i j
      = if chanB chan i j then some 0
        else match d8next h w dir (i, j) with
          | some u => (lookup prev none u.1 u.2).map fun d => d + hop i j
          | none => none := by
  rw [distStepD8]
  exact lookup_materialize h w _ none hi hj

theorem distStepD8_isSome_mono {β : Type} [Add β] [Zero β] {h w : ℕ}
    (dir chan : ℕ → ℕ → ℕ) (hop : ℕ → ℕ → β)
    {p q : List (List (Option β))}
    (hpq : ∀ a b, (lookup p none a b).isSome = true →
      (lookup q none a b).isSome = true)
    (i j : ℕ)
    (hs : (lookup (distStepD8 h w dir chan hop p) none i j).isSome = true) :
    (lookup (distStepD8 h w dir chan hop q) none i j).isSome = true := by
  by_cases hij : i < h ∧ j < w
  swap
  · rw [distStepD8, lookup_materialize_oob _ _ hij] at hs
    cases hs
  obtain ⟨hi, hj⟩ := hij
  rw [distStepD8_lookup dir chan hop p hi hj] at hs
  rw [distStepD8_lookup dir chan hop q hi hj]
  by_cases hc : chanB chan i j = true
  · rw [if_pos hc]
    rfl
  · rw [if_neg hc] at hs ⊢
    rcases hu : d8next h w dir (i, j) with - | u
    · simp only [hu] at hs
      cases hs
    · simp only [hu] at hs ⊢
      rw [Option.isSome_map'] at hs ⊢
      exact hpq u.1 u.2 hs

theorem d8_chan_defined {β : Type} [Add β] [Zero β] {h w : ℕ}
    (dir chan : ℕ → ℕ → ℕ) (hop : ℕ → ℕ → β) (n : ℕ) {i j : ℕ}
    (hi : i < h) (hj : j < w) (hc : chanB chan i j = true) :
    (lookup ((distStepD8 h w dir chan hop)^[n]
      (materialize h w fun a b => if chanB chan a b then some 0 else none))
      none i j).isSome = true := by
  cases n with
  | zero =>
    rw [Function.iterate_zero_apply, lookup_materialize _ _ _ _ hi hj, if_pos hc]
    rfl
  | succ m =>
    rw [Function.iterate_succ_apply', distStepD8_lookup dir chan hop _ hi hj,
      if_pos hc]
    rfl

theorem d8Iter_isSome_mono {β : Type} [Add β] [Zero β] {h w : ℕ}
    (dir chan : ℕ → ℕ → ℕ) (hop : ℕ → ℕ → β) :
    ∀ (n a b : ℕ),
      (lookup ((distStepD8 h w dir chan hop)^[n]
        (materialize h w fun x y => if chanB chan x y then some 0 else none))
        none a b).isSome = true →
      (lookup ((distStepD8 h w dir chan hop)^[n + 1]
        (materialize h w fun x y => if chanB chan x y then some 0 else none))
        none a b).isSome = true := by
  intro n
  induction n with
  | zero =>
    intro a b hs
    by_cases hab : a < h ∧ b < w
    swap
    · rw [Function.iterate_zero_apply, lookup_materialize_oob _ _ hab] at hs
      cases hs
    obtain ⟨ha, hb⟩ := hab
    rw [Function.iterate_zero_apply, lookup_materialize _ _ _ _ ha hb] at hs
    by_cases hc : chanB chan a b = true
    · exact d8_chan_defined dir chan hop 1 ha hb hc
    · rw [if_neg hc] at hs
      cases hs
  | succ n ih =>
    intro a b hs
    rw [Function.iterate_succ_apply'] at hs
    rw [Function.iterate_succ_apply']
    exact distStepD8_isSome_mono dir chan hop ih a b hs

theorem mem_d8DefSet {h w : ℕ} {dir chan : ℕ → ℕ → ℕ} {hop : ℕ → ℕ → Q2 ℚ}
    {n : ℕ} {c : ℕ × ℕ} :
    c ∈ d8DefSet h w dir chan hop n
      ↔ c.1 < h ∧ c.2 < w ∧ (lookup ((distStepD8 h w dir chan hop)^[n]
          (materialize h w fun a b => if chanB chan a b then some 0 else none))
          none c.1 c.2).isSome = true := by
  rw [d8DefSet, Finset.mem_filter, Finset.mem_product, Finset.mem_range,
    Finset.mem_range, and_assoc]

theorem mem_d8DefSet_succ {h w : ℕ} {dir chan : ℕ → ℕ → ℕ} {hop : ℕ → ℕ → Q2 ℚ}
    {n : ℕ} {c : ℕ × ℕ} :
    c ∈ d8DefSet h w dir chan hop (n + 1)
      ↔ c.1 < h ∧ c.2 < w ∧ (chanB chan c.1 c.2 = true
          ∨ ∃ u, d8next h w dir c = some u ∧ u ∈ d8DefSet h w dir chan hop n) := by
  rw [mem_d8DefSet]
  constructor
  · rintro ⟨h1, h2, hs⟩
    refine ⟨h1, h2, ?_⟩
    rw [Function.iterate_succ_apply', distStepD8_lookup dir chan hop _ h1 h2] at hs
    by_cases hc : chanB chan c.1 c.2 = true
    · exact Or.inl hc
    · rw [if_neg hc] at hs
      refine Or.inr ?_
      rcases hu : d8next h w dir (c.1, c.2) with - | u
      · simp only [hu] at hs
        cases hs
      · simp only [hu] at hs
        rw [Option.isSome_map'] at hs
        have hu2 : d8next h w dir c = some u := hu
        obtain ⟨_, _, _, hv1, hv2, _⟩ := d8next_some_elim hu2
        refine ⟨u, rfl, ?_⟩
        rw [mem_d8DefSet]
        exact ⟨hv1, hv2, hs⟩
  · rintro ⟨h1, h2, hrest⟩
    refine ⟨h1, h2, ?_⟩
    rw [Function.iterate_succ_apply', distStepD8_lookup dir chan hop _ h1 h2]
    rcases hrest with hc | ⟨u, hu, humem⟩
    · rw [if_pos hc]
      rfl
    · by_cases hc : chanB chan c.1 c.2 = true
      · rw [if_pos hc]
        rfl
      · rw [if_neg hc]
        have hu2 : d8next h w dir (c.1, c.2) = some u := hu
        simp only [hu2]
        rw [Option.isSome_map']
        rw [mem_d8DefSet] at humem
        exact humem.2.2

theorem d8DefSet_chain (h w : ℕ) (dir chan : ℕ → ℕ → ℕ) (hop : ℕ → ℕ → Q2 ℚ)
    (n : ℕ) : d8DefSet h w dir chan hop n ⊆ d8DefSet h w dir chan hop (n + 1) := by
  intro c hc
  rw [mem_d8DefSet] at hc ⊢
  exact ⟨hc.1, hc.2.1, d8Iter_isSome_mono dir chan hop n c.1 c.2 hc.2.2⟩

theorem d8DefSet_step_congr (h w : ℕ) (dir chan : ℕ → ℕ → ℕ)
    (hop : ℕ → ℕ → Q2 ℚ) (a b : ℕ)
    (hab : d8DefSet h w dir chan hop a = d8DefSet h w dir chan hop b) :
    d8DefSet h w dir chan hop (a + 1) = d8DefSet h w dir chan hop (b + 1) := by
  refine Finset.ext fun c => ?_
  rw [mem_d8DefSet_succ, mem_d8DefSet_succ, hab]

theorem d8_reach_defined (h w : ℕ) (dir chan : ℕ → ℕ → ℕ) (hop : ℕ → ℕ → Q2 ℚ) :
    ∀ (m : ℕ) (c : ℕ × ℕ), c.1 < h → c.2 < w →
      (∃ d, iterD8 h w dir m c = some d ∧ chanB chan d.1 d.2 = true) →
      c ∈ d8DefSet h w dir chan hop m := by
  intro m
  induction m with
  | zero =>
    rintro c h1 h2 ⟨d, hd, hcd⟩
    rw [show iterD8 h w dir 0 c = some c from rfl] at hd
    injection hd with hd
    subst hd
    rw [mem_d8DefSet]
    exact ⟨h1, h2, d8_chan_defined dir chan hop 0 h1 h2 hcd⟩
  | succ m ih =>
    rintro c h1 h2 ⟨d, hd, hcd⟩
    by_cases hc : chanB chan c.1 c.2 = true
    · rw [mem_d8DefSet]
      exact ⟨h1, h2, d8_chan_defined dir chan hop (m + 1) h1 h2 hc⟩
    · rw [iterD8_succ_front] at hd
      split at hd
      case _ u hu =>
        obtain ⟨_, _, _, hv1, hv2, _⟩ := d8next_some_elim hu
        rw [mem_d8DefSet_succ]
        exact ⟨h1, h2, Or.inr ⟨u, hu, ih u hv1 hv2 ⟨d, hd, hcd⟩⟩⟩
      case _ hu =>
        cases hd

theorem d8_final_channel {β : Type} [Add β] [Zero β] (h w : ℕ)
    (dir chan : ℕ → ℕ → ℕ) (hop : ℕ → ℕ → β) {i j : ℕ}
    (hi : i < h) (hj : j < w) (hc : chanB chan i j = true) :
    lookup (d8DistCore h w dir chan hop) none i j = some 0 := by
  rw [d8DistCore]
  have hh : 0 < h := Nat.lt_of_le_of_lt (Nat.zero_le i) hi
  have hw : 0 < w := Nat.lt_of_le_of_lt (Nat.zero_le j) hj
  obtain ⟨m, hm⟩ : ∃ m, h * w = m + 1 :=
    ⟨h * w - 1, by have := Nat.mul_pos hh hw; omega⟩
  rw [hm, Function.iterate_succ_apply', distStepD8_lookup dir chan hop _ hi hj,
    if_pos hc]

theorem d8_toReal_inv (h w : ℕ) (dir chan : ℕ → ℕ → ℕ) :
    ∀ (n i j : ℕ) (v : Q2 ℚ),
      lookup ((distStepD8 h w dir chan (fun a b => geoCost (dir a b)))^[n]
        (materialize h w fun a b => if chanB chan a b then some 0 else none))
        none i j = some v →
      0 ≤ Q2.toReal v ∧ (chanB chan i j = false → 1 ≤ Q2.toReal v) := by
  intro n
  induction n with
  | zero =>
    intro i j v hv
    by_cases hij : i < h ∧ j < w
    swap
    · rw [Function.iterate_zero_apply, lookup_materialize_oob _ _ hij] at hv
      cases hv
    obtain ⟨hi, hj⟩ := hij
    rw [Function.iterate_zero_apply, lookup_materialize _ _ _ _ hi hj] at hv
    by_cases hc : chanB chan i j = true
    · rw [if_pos hc] at hv
      injection hv with hv
      subst hv
      refine ⟨le_of_eq toReal_zero.symm, fun hf => ?_⟩
      rw [hc] at hf
      cases hf
    · rw [if_neg hc] at hv
      cases hv
  | succ n ih =>
    intro i j v hv
    by_cases hij : i < h ∧ j < w
    swap
    · rw [Function.iterate_succ_apply', distStepD8,
        lookup_materialize_oob _ _ hij] at hv
      cases hv
    obtain ⟨hi, hj⟩ := hij
    rw [Function.iterate_succ_apply', distStepD8_lookup _ _ _ _ hi hj] at hv
    by_cases hc : chanB chan i j = true
    · rw [if_pos hc] at hv
      injection hv with hv
      subst hv
      refine ⟨le_of_eq toReal_zero.symm, fun hf => ?_⟩
      rw [hc] at hf
      cases hf
    · rw [if_neg hc] at hv
      split at hv
      case _ u hu =>
        rw [Option.map_eq_some'] at hv
        obtain ⟨d, hd, hdv⟩ := hv
        have h1 : 1 ≤ Q2.toReal (d + geoCost (dir i j)) := by
          rw [toReal_add]
          have hd0 := (ih u.1 u.2 d hd).1
          have hg := one_le_toReal_geoCost (dir i j)
          linarith
        rw [← hdv]
        exact ⟨le_trans zero_le_one h1, fun _ => h1⟩
      case _ hu =>
        cases hv

theorem d8_dist_pos (h w : ℕ) (dir chan : ℕ → ℕ → ℕ) {i j : ℕ}
    (hi : i < h) (hj : j < w)
    (hreach : ∃ m d, iterD8 h w dir m (i, j) = some d ∧ chanB chan d.1 d.2 = true)
    (hc : chanB chan i j = false) :
    ∃ v, lookup (distance_to_channel_d8 h w dir chan
        (none : Option (ℕ → ℕ → ℚ))) none i j = some v ∧ 0 < Q2.toReal v := by
  obtain ⟨m, d, hmd, hcd⟩ := hreach
  have hmem : (i, j) ∈ d8DefSet h w dir chan (fun a b => geoCost (dir a b)) m :=
    d8_reach_defined h w dir chan _ m (i, j) hi hj ⟨d, hmd, hcd⟩
  have hsub : d8DefSet h w dir chan (fun a b => geoCost (dir a b)) m
      ⊆ d8DefSet h w dir chan (fun a b => geoCost (dir a b)) (h * w) := by
    refine seq_stall _ (Finset.range h ×ˢ Finset.range w)
      (d8DefSet_chain h w dir chan _) (d8DefSet_step_congr h w dir chan _)
      (fun n => Finset.filter_subset _ _) (h * w) ?_ m
    rw [Finset.card_product, Finset.card_range, Finset.card_range]
  have hfin := hsub hmem
  rw [mem_d8DefSet] at hfin
  obtain ⟨v, hv⟩ := Option.isSome_iff_exists.mp hfin.2.2
  refine ⟨v, ?_, ?_⟩
  · exact hv
  · have hinv := (d8_toReal_inv h w dir chan (h * w) i j v hv).2 hc
    exact lt_of_lt_of_le zero_lt_one hinv

theorem mfdContribs_mem_elim {h w : ℕ} {g : ℕ → ℕ → ℕ}
    {hop : ℕ → ℕ → ℕ → Q2 ℚ} {f : ℕ → ℕ → Option (Q2 ℚ)} {i j : ℕ}
    {y : ℚ × Q2 ℚ} (hy : y ∈ mfdContribs h w g hop f i j) :
    ∃ k u x, k < 8 ∧ nbr h w i j k = some u ∧ mfdField g i j k ≠ 0
      ∧ f u.1 u.2 = some x ∧ y = ((mfdField g i j k : ℚ), x + hop i j k) := by
  rw [mfdContribs, List.mem_filterMap] at hy
  obtain ⟨k, hk, hk2⟩ := hy
  rw [List.mem_range] at hk
  refine ⟨k, ?_⟩
  split at hk2
  case _ u hu =>
    by_cases hf : mfdField g i j k ≠ 0
    · rw [if_pos hf, Option.map_eq_some'] at hk2
      obtain ⟨x, hx, hxy⟩ := hk2
      exact ⟨u, x, hk, hu, hf, hx, hxy.symm⟩
    · rw [if_neg hf] at hk2
      cases hk2
  case _ hu =>
    cases hk2

theorem mfdContribs_mem_intro {h w : ℕ} (g : ℕ → ℕ → ℕ)
    (hop : ℕ → ℕ → ℕ → Q2 ℚ) (f : ℕ → ℕ → Option (Q2 ℚ)) {i j k : ℕ}
    {u : ℕ × ℕ} {x : Q2 ℚ} (hk : k < 8) (hu : nbr h w i j k = some u)
    (hf : mfdField g i j k ≠ 0) (hx : f u.1 u.2 = some x) :
    ((mfdField g i j k : ℚ), x + hop i j k) ∈ mfdContribs h w g hop f i j := by
  rw [mfdContribs, List.mem_filterMap]
  refine ⟨k, List.mem_range.mpr hk, ?_⟩
  simp only [hu]
  rw [if_pos hf, hx, Option.map_some']

theorem mfdDistStep_isSome_iff {h w : ℕ} (g chan : ℕ → ℕ → ℕ)
    (hop : ℕ → ℕ → ℕ → Q2 ℚ) (f : ℕ → ℕ → Option (Q2 ℚ)) (i j : ℕ) :
    (mfdDistStep h w g chan hop f i j).isSome = true
      ↔ i < h ∧ j < w ∧ (chanB chan i j = true
          ∨ (mfdContribs h w g hop f i j).isEmpty = false) := by
  simp only [mfdDistStep]
  constructor
  · intro hs
    by_cases hij : i < h ∧ j < w
    swap
    · rw [if_neg hij] at hs
      cases hs
    refine ⟨hij.1, hij.2, ?_⟩
    rw [if_pos hij] at hs
    by_cases hc : chanB chan i j = true
    · exact Or.inl hc
    · rw [if_neg hc] at hs
      by_cases hemp : (mfdContribs h w g hop f i j).isEmpty = true
      · rw [if_pos hemp] at hs
        cases hs
      · exact Or.inr (Bool.eq_false_iff.mpr hemp)
  · rintro ⟨h1, h2, hor⟩
    rw [if_pos ⟨h1, h2⟩]
    by_cases hc : chanB chan i j = true
    · rw [if_pos hc]
      rfl
    · rw [if_neg hc]
      rcases hor with hcc | hemp
      · exact absurd hcc hc
      · rw [if_neg (fun ht => Bool.eq_false_iff.mp hemp ht)]
        rfl

theorem mfdDistStep_isSome_mono {h w : ℕ} (g chan : ℕ → ℕ → ℕ)
    (hop : ℕ → ℕ → ℕ → Q2 ℚ) {p q : ℕ → ℕ → Option (Q2 ℚ)}
    (hpq : ∀ a b, (p a b).isSome = true → (q a b).isSome = true) (i j : ℕ)
    (hs : (mfdDistStep h w g chan hop p i j).isSome = true) :
    (mfdDistStep h w g chan hop q i j).isSome = true := by
  rw [mfdDistStep_isSome_iff] at hs ⊢
  obtain ⟨h1, h2, hor⟩ := hs
  refine ⟨h1, h2, ?_⟩
  rcases hor with hc | hemp
  · exact Or.inl hc
  · refine Or.inr ?_
    have hne : mfdContribs h w g hop p i j ≠ [] := by
      intro hnil
      rw [hnil] at hemp
      exact Bool.noConfusion hemp
    obtain ⟨y, hy⟩ := List.exists_mem_of_ne_nil _ hne
    obtain ⟨k, u, x, hk, hu, hf, hx, -⟩ := mfdContribs_mem_elim hy
    have hq : (q u.1 u.2).isSome = true := hpq u.1 u.2 (by rw [hx]; rfl)
    obtain ⟨x2, hx2⟩ := Option.isSome_iff_exists.mp hq
    have hmem := mfdContribs_mem_intro g hop q hk hu hf hx2
    exact Bool.eq_false_iff.mpr fun ht =>
      List.ne_nil_of_mem hmem (List.isEmpty_iff.mp ht)

theorem mfd_chan_defined {h w : ℕ} (g chan : ℕ → ℕ → ℕ)
    (hop : ℕ → ℕ → ℕ → Q2 ℚ) (n : ℕ) {i j : ℕ} (hi : i < h) (hj : j < w)
    (hc : chanB chan i j = true) :
    ((mfdDistStep h w g chan hop)^[n]
      (fun a b => if a < h ∧ b < w ∧ chanB chan a b then some 0 else none)
      i j).isSome = true := by
  cases n with
  | zero =>
    rw [Function.iterate_zero_apply, if_pos ⟨hi, hj, hc⟩]
    rfl
  | succ m =>
    rw [Function.iterate_succ_apply', mfdDistStep_isSome_iff]
    exact ⟨hi, hj, Or.inl hc⟩

theorem mfdIter_isSome_mono {h w : ℕ} (g chan : ℕ → ℕ → ℕ)
    (hop : ℕ → ℕ → ℕ → Q2 ℚ) :
    ∀ (n a b : ℕ),
      ((mfdDistStep h w g chan hop)^[n]
        (fun x y => if x < h ∧ y < w ∧ chanB chan x y then some 0 else none)
        a b).isSome = true →
      ((mfdDistStep h w g chan hop)^[n + 1]
        (fun x y => if x < h ∧ y < w ∧ chanB chan x y then some 0 else none)
        a b).isSome = true := by
  intro n
  induction n with
  | zero =>
    intro a b hs
    rw [Function.iterate_zero_apply] at hs
    by_cases hcond : a < h ∧ b < w ∧ chanB chan a b = true
    · exact mfd_chan_defined g chan hop 1 hcond.1 hcond.2.1 hcond.2.2
    · rw [if_neg hcond] at hs
      cases hs
  | succ n ih =>
    intro a b hs
    rw [Function.iterate_succ_apply'] at hs
    rw [Function.iterate_succ_apply']
    exact mfdDistStep_isSome_mono g chan hop ih a b hs

theorem mem_mfdDefSet {h w : ℕ} {g chan : ℕ → ℕ → ℕ}
    {hop : ℕ → ℕ → ℕ → Q2 ℚ} {n : ℕ} {c : ℕ × ℕ} :
    c ∈ mfdDefSet h w g chan hop n
      ↔ c.1 < h ∧ c.2 < w ∧ ((mfdDistStep h w g chan hop)^[n]
          (fun a b => if a < h ∧ b < w ∧ chanB chan a b then some 0 else none)
          c.1 c.2).isSome = true := by
  rw [mfdDefSet, Finset.mem_filter, Finset.mem_product, Finset.mem_range,
    Finset.mem_range, and_assoc]

theorem mem_mfdDefSet_succ {h w : ℕ} {g chan : ℕ → ℕ → ℕ}
    {hop : ℕ → ℕ → ℕ → Q2 ℚ} {n : ℕ} {c : ℕ × ℕ} :
    c ∈ mfdDefSet h w g chan hop (n + 1)
      ↔ c.1 < h ∧ c.2 < w ∧ (chanB chan c.1 c.2 = true
          ∨ ∃ k u, k < 8 ∧ mfdField g c.1 c.2 k ≠ 0 ∧ nbr h w c.1 c.2 k = some u
            ∧ u ∈ mfdDefSet h w g chan hop n) := by
  rw [mem_mfdDefSet]
  constructor
  · rintro ⟨h1, h2, hs⟩
    refine ⟨h1, h2, ?_⟩
    rw [Function.iterate_succ_apply', mfdDistStep_isSome_iff] at hs
    rcases hs.2.2 with hc | hemp
    · exact Or.inl hc
    · refine Or.inr ?_
      have hne : mfdContribs h w g hop
          ((mfdDistStep h w g chan hop)^[n]
            (fun a b => if a < h ∧ b < w ∧ chanB chan a b then some 0 else none))
          c.1 c.2 ≠ [] := by
        intro hnil
        rw [hnil] at hemp
        exact Bool.noConfusion hemp
      obtain ⟨y, hy⟩ := List.exists_mem_of_ne_nil _ hne
      obtain ⟨k, u, x, hk, hu, hf, hx, -⟩ := mfdContribs_mem_elim hy
      obtain ⟨hv1, hv2⟩ := nbr_some_valid hu
      refine ⟨k, u, hk, hf, hu, ?_⟩
      rw [mem_mfdDefSet]
      exact ⟨hv1, hv2, by rw [hx]; rfl⟩
  · rintro ⟨h1, h2, hrest⟩
    refine ⟨h1, h2, ?_⟩
    rw [Function.iterate_succ_apply', mfdDistStep_isSome_iff]
    refine ⟨h1, h2, ?_⟩
    rcases hrest with hc | ⟨k, u, hk, hf, hu, humem⟩
    · exact Or.inl hc
    · refine Or.inr ?_
      rw [mem_mfdDefSet] at humem
      obtain ⟨x, hx⟩ := Option.isSome_iff_exists.mp humem.2.2
      have hmem := mfdContribs_mem_intro g hop _ hk hu hf hx
      exact Bool.eq_false_iff.mpr fun ht =>
        List.ne_nil_of_mem hmem (List.isEmpty_iff.mp ht)

theorem mfdDefSet_chain (h w : ℕ) (g chan : ℕ → ℕ → ℕ)
    (hop : ℕ → ℕ → ℕ → Q2 ℚ) (n : ℕ) :
    mfdDefSet h w g chan hop n ⊆ mfdDefSet h w g chan hop (n + 1) := by
  intro c hc
  rw [mem_mfdDefSet] at hc ⊢
  exact ⟨hc.1, hc.2.1, mfdIter_isSome_mono g chan hop n c.1 c.2 hc.2.2⟩

theorem mfdDefSet_step_congr (h w : ℕ) (g chan : ℕ → ℕ → ℕ)
    (hop : ℕ → ℕ → ℕ → Q2 ℚ) (a b : ℕ)
    (hab : mfdDefSet h w g chan hop a = mfdDefSet h w g chan hop b) :
    mfdDefSet h w g chan hop (a + 1) = mfdDefSet h w g chan hop (b + 1) := by
  refine Finset.ext fun c => ?_
  rw [mem_mfdDefSet_succ, mem_mfdDefSet_succ, hab]

theorem mfd_reach_defined (h w : ℕ) (g chan : ℕ → ℕ → ℕ)
    (hop : ℕ → ℕ → ℕ → Q2 ℚ) :
    ∀ (m : ℕ) (c : ℕ × ℕ), mreach h w g chan m c →
      c ∈ mfdDefSet h w g chan hop m := by
  intro m
  induction m with
  | zero =>
    rintro c ⟨h1, h2, hc⟩
    rw [mem_mfdDefSet]
    exact ⟨h1, h2, mfd_chan_defined g chan hop 0 h1 h2 hc⟩
  | succ m ih =>
    rintro c ⟨h1, h2, hor⟩
    rcases hor with hc | ⟨k, u, hk, hf, hu, hr⟩
    · rw [mem_mfdDefSet]
      exact ⟨h1, h2, mfd_chan_defined g chan hop (m + 1) h1 h2 hc⟩
    · rw [mem_mfdDefSet_succ]
      exact ⟨h1, h2, Or.inr ⟨k, u, hk, hf, hu, ih u hr⟩⟩

theorem mfd_final_channel (h w : ℕ) (g chan : ℕ → ℕ → ℕ)
    (wtOpt : Option (ℕ → ℕ → ℚ)) {i j : ℕ} (hi : i < h) (hj : j < w)
    (hc : chanB chan i j = true) :
    distance_to_channel_mfd h w g chan wtOpt i j = some 0 := by
  rw [distance_to_channel_mfd]
  have hh : 0 < h := Nat.lt_of_le_of_lt (Nat.zero_le i) hi
  have hw : 0 < w := Nat.lt_of_le_of_lt (Nat.zero_le j) hj
  obtain ⟨m, hm⟩ : ∃ m, h * w = m + 1 :=
    ⟨h * w - 1, by have := Nat.mul_pos hh hw; omega⟩
  rw [hm, Function.iterate_succ_apply']
  simp only [mfdDistStep]
  rw [if_pos ⟨hi, hj⟩, if_pos hc]

theorem avg_ge_one (l : List (ℚ × Q2 ℚ)) (hne : l ≠ [])
    (hpos : ∀ p ∈ l, 0 < p.1) (hge : ∀ p ∈ l, 1 ≤ Q2.toReal p.2) :
    1 ≤ Q2.toReal (Q2.scale (asum (l.map Prod.fst))⁻¹
      (asum (l.map fun p => Q2.scale p.1 p.2))) := by
  have hW : 0 < asum (l.map Prod.fst) := by
    refine asum_pos_of_forall (fun hnil => hne ?_) fun x hx => ?_
    · exact (List.map_eq_nil.mp hnil)
    · obtain ⟨p, hp, rfl⟩ := List.mem_map.mp hx
      exact hpos p hp
  have hWR : (0 : ℝ) < ((asum (l.map Prod.fst) : ℚ) : ℝ) := by
    exact_mod_cast hW
  rw [toReal_scale]
  have hv2 : Q2.toReal (asum (l.map fun p => Q2.scale p.1 p.2))
      = asum (l.map fun p => ((p.1 : ℚ) : ℝ) * Q2.toReal p.2) := by
    rw [toReal_asum, List.map_map]
    refine congrArg asum (List.map_congr_left fun p _ => ?_)
    exact toReal_scale p.1 p.2
  rw [hv2]
  have hle : ((asum (l.map Prod.fst) : ℚ) : ℝ)
      ≤ asum (l.map fun p => ((p.1 : ℚ) : ℝ) * Q2.toReal p.2) := by
    rw [asum_ratCast, List.map_map]
    refine asum_le_asum l _ _ fun p hp => ?_
    rw [Function.comp_apply]
    refine le_mul_of_one_le_right ?_ (hge p hp)
    exact_mod_cast (hpos p hp).le
  rw [Rat.cast_inv]
  have hmul := mul_le_mul_of_nonneg_left hle (inv_nonneg.mpr hWR.le)
  calc (1 : ℝ) = ((asum (l.map Prod.fst) : ℚ) : ℝ)⁻¹
        * ((asum (l.map Prod.fst) : ℚ) : ℝ) := (inv_mul_cancel₀ hWR.ne').symm
    _ ≤ _ := hmul

theorem mfd_toReal_inv (h w : ℕ) (g chan : ℕ → ℕ → ℕ) :
    ∀ (n i j : ℕ) (v : Q2 ℚ),
      (mfdDistStep h w g chan (mfdHop none))^[n]
        (fun a b => if a < h ∧ b < w ∧ chanB chan a b then some 0 else none)
        i j = some v →
      0 ≤ Q2.toReal v ∧ (chanB chan i j = false → 1 ≤ Q2.toReal v) := by
  intro n
  induction n with
  | zero =>
    intro i j v hv
    rw [Function.iterate_zero_apply] at hv
    by_cases hcond : i < h ∧ j < w ∧ chanB chan i j = true
    · rw [if_pos hcond] at hv
      injection hv with hv
      subst hv
      refine ⟨le_of_eq toReal_zero.symm, fun hf => ?_⟩
      rw [hcond.2.2] at hf
      cases hf
    · rw [if_neg hcond] at hv
      cases hv
  | succ n ih =>
    intro i j v hv
    rw [Function.iterate_succ_apply'] at hv
    simp only [mfdDistStep] at hv
    by_cases hij : i < h ∧ j < w
    swap
    · rw [if_neg hij] at hv
      cases hv
    rw [if_pos hij] at hv
    by_cases hc : chanB chan i j = true
    · rw [if_pos hc] at hv
      injection hv with hv
      subst hv
      refine ⟨le_of_eq toReal_zero.symm, fun hf => ?_⟩
      rw [hc] at hf
      cases hf
    · rw [if_neg hc] at hv
      by_cases hemp : (mfdContribs h w g (mfdHop none)
          ((mfdDistStep h w g chan (mfdHop none))^[n]
            (fun a b => if a < h ∧ b < w ∧ chanB chan a b then some 0 else none))
          i j).isEmpty = true
      · rw [if_pos hemp] at hv
        cases hv
      · rw [if_neg hemp] at hv
        injection hv with hv
        have hne : mfdContribs h w g (mfdHop none)
            ((mfdDistStep h w g chan (mfdHop none))^[n]
              (fun a b => if a < h ∧ b < w ∧ chanB chan a b then some 0 else none))
            i j ≠ [] := fun hnil => hemp (by rw [hnil]; rfl)
        have h1 : 1 ≤ Q2.toReal v := by
          rw [← hv]
          refine avg_ge_one _ hne (fun p hp => ?_) (fun p hp => ?_)
          · obtain ⟨k, u, x, hk, hu, hf, hx, rfl⟩ := mfdContribs_mem_elim hp
            show (0 : ℚ) < (mfdField g i j k : ℚ)
            exact_mod_cast Nat.pos_of_ne_zero hf
          · obtain ⟨k, u, x, hk, hu, hf, hx, rfl⟩ := mfdContribs_mem_elim hp
            have hx0 := (ih u.1 u.2 x hx).1
            have hg : 1 ≤ Q2.toReal (mfdHop none i j k) := one_le_toReal_geoCost k
            show 1 ≤ Q2.toReal (x + mfdHop none i j k)
            rw [toReal_add]
            linarith
        exact ⟨le_trans zero_le_one h1, fun _ => h1⟩

theorem mfd_dist_pos (h w : ℕ) (g chan : ℕ → ℕ → ℕ) {i j : ℕ}
    (hi : i < h) (hj : j < w) (hc : chanB chan i j = false)
    (hreach : ∃ m, mreach h w g chan m (i, j)) :
    ∃ v, distance_to_channel_mfd h w g chan none i j = some v
      ∧ 0 < Q2.toReal v := by
  obtain ⟨m, hm⟩ := hreach
  have hmem := mfd_reach_defined h w g chan (mfdHop none) m (i, j) hm
  have hsub : mfdDefSet h w g chan (mfdHop none) m
      ⊆ mfdDefSet h w g chan (mfdHop none) (h * w) := by
    refine seq_stall _ (Finset.range h ×ˢ Finset.range w)
      (mfdDefSet_chain h w g chan _) (mfdDefSet_step_congr h w g chan _)
      (fun n => Finset.filter_subset _ _) (h * w) ?_ m
    rw [Finset.card_product, Finset.card_range, Finset.card_range]
  have hfin := hsub hmem
  rw [mem_mfdDefSet] at hfin
  obtain ⟨v, hv⟩ := Option.isSome_iff_exists.mp hfin.2.2
  exact ⟨v, hv,
    lt_of_lt_of_le zero_lt_one ((mfd_toReal_inv h w g chan (h * w) i j v hv).2 hc)⟩

/-- C3: with the default geometric hop weights, `distance_to_channel_d8`
and `distance_to_channel_mfd` both resolve every valid channel cell to
distance exactly 0, and resolve every valid non-channel cell whose downstream
path (the unique D8 chain, respectively any MFD outflow path with nonzero
packed fields) reaches a channel cell to a strictly positive distance. -/
theorem claim_C3 (h w : ℕ) (dir g chan : ℕ → ℕ → ℕ) :
    (∀ i j, i < h → j < w → chanB chan i j = true →
        lookup (distance_to_channel_d8 h w dir chan
          (none : Option (ℕ → ℕ → ℚ))) none i j = some 0)
    ∧ (∀ i j, i < h → j < w → chanB chan i j = false →
        (∃ m d, iterD8 h w dir m (i, j) = some d ∧ chanB chan d.1 d.2 = true) →
        ∃ v, lookup (distance_to_channel_d8 h w dir chan
            (none : Option (ℕ → ℕ → ℚ))) none i j = some v ∧ 0 < Q2.toReal v)
    ∧ (∀ i j, i < h → j < w → chanB chan i j = true →
        distance_to_channel_mfd h w g chan none i j = some 0)
    ∧ (∀ i j, i < h → j < w → chanB chan i j = false →
        (∃ m, mreach h w g chan m (i, j)) →
        ∃ v, distance_to_channel_mfd h w g chan none i j = some v
          ∧ 0 < Q2.toReal v) := by
  refine ⟨?_, ?_, ?_, ?_⟩
  · intro i j hi hj hc
    exact d8_final_channel h w dir chan _ hi hj hc
  · intro i j hi hj hc hreach
    exact d8_dist_pos h w dir chan hi hj hreach hc
  · intro i j hi hj hc
    exact mfd_final_channel h w g chan none hi hj hc
  · intro i j hi hj hc hreach
    exact mfd_dist_pos h w g chan hi hj hc hreach

theorem claim_C3_witness :
    (chanB (fun _ b => if b = 1 then 1 else 0) 0 0 = false)
    ∧ (chanB (fun _ b => if b = 1 then 1 else 0) 0 1 = true)
    ∧ (∃ m d, iterD8 1 2 (fun _ _ => 0) m (0, 0) = some d
        ∧ chanB (fun _ b => if b = 1 then 1 else 0) d.1 d.2 = true)
    ∧ (∃ m, mreach 1 2 (fun _ _ => 1) (fun _ b => if b = 1 then 1 else 0) m (0, 0))
    ∧ (lookup (distance_to_channel_d8 1 2 (fun _ _ => 0)
        (fun _ b => if b = 1 then 1 else 0) (none : Option (ℕ → ℕ → ℚ)))
        none 0 1 = some 0)
    ∧ (∃ v, lookup (distance_to_channel_d8 1 2 (fun _ _ => 0)
        (fun _ b => if b = 1 then 1 else 0) (none : Option (ℕ → ℕ → ℚ)))
        none 0 0 = some v ∧ 0 < Q2.toReal v)
    ∧ (distance_to_channel_mfd 1 2 (fun _ _ => 1)
        (fun _ b => if b = 1 then 1 else 0) none 0 1 = some 0)
    ∧ (∃ v, distance_to_channel_mfd 1 2 (fun _ _ => 1)
        (fun _ b => if b = 1 then 1 else 0) none 0 0 = some v
        ∧ 0 < Q2.toReal v) := by
  have hC := claim_C3 1 2 (fun _ _ => 0) (fun _ _ => 1)
    (fun _ b => if b = 1 then 1 else 0)
  refine ⟨by decide, by decide, ⟨1, (0, 1), by decide, by decide⟩,
    ⟨1, ?_⟩, ?_, ?_, ?_, ?_⟩
  · exact ⟨by decide, by decide, Or.inr ⟨0, (0, 1), by decide, by decide,
      by decide, by decide, by decide, by decide⟩⟩
  · exact hC.1 0 1 (by decide) (by decide) (by decide)
  · exact hC.2.1 0 0 (by decide) (by decide) (by decide)
      ⟨1, (0, 1), by decide, by decide⟩
  · exact hC.2.2.1 0 1 (by decide) (by decide) (by decide)
  · refine hC.2.2.2 0 0 (by decide) (by decide) (by decide) ⟨1, ?_⟩
    exact ⟨by decide, by decide, Or.inr ⟨0, (0, 1), by decide, by decide,
      by decide, by decide, by decide, by decide⟩⟩

end PGP
